import Mathlib

set_option autoImplicit false

namespace ContextTree

/-!
Shallow embedding of the conversation-tree core of the repository
(`src/core/state.py`, `src/core/tree.py`, `src/core/navigation.py`,
`src/utils/validators.py`).

Modelling conventions: Python strings are Lean `String`s, Python `dict`s
are insertion-ordered association lists (assignment replaces an existing
key in place and appends a fresh key at the end), the derived lookup
indices of the tree are Lean functions, Python `datetime.now()` instants
are abstract `Nat` clock values supplied by the caller (with
`isoformat`/`fromisoformat` a lossless identity on them), and Python
`frozenset`s of strings are `Finset String` (iteration order of a
Python set is unspecified, so serialisation lists a set in a canonical
order).  Raised exceptions of the tree and navigator are `Except`
results carrying the distinct error condition of each `raise` site.
-/

/-- The decimal digit characters used by Python `str` on a non-negative
integer. -/
def digitChar : Nat → Char
  | 0 => '0'
  | 1 => '1'
  | 2 => '2'
  | 3 => '3'
  | 4 => '4'
  | 5 => '5'
  | 6 => '6'
  | 7 => '7'
  | 8 => '8'
  | _ => '9'

/-- Decimal digits of `n`, most significant first; `fuel` bounds the
recursion and any `fuel > n` computes the full digit string. -/
def toDigitsAux : Nat → Nat → List Char
  | 0, _ => []
  | fuel + 1, n =>
    if n < 10 then [digitChar n]
    else toDigitsAux fuel (n / 10) ++ [digitChar (n % 10)]

/-- Python `str(n)` for a natural number. -/
def natToStr (n : Nat) : String := ⟨toDigitsAux (n + 1) n⟩

/-- Numeric value of a list of decimal digit characters (the digit part
of Python `int` applied to a string). -/
def digitsVal (l : List Char) : Nat := l.foldl (fun a c => 10 * a + (c.toNat - 48)) 0

/-- Python `str.strip()` with the default whitespace set. -/
def pyStrip (s : String) : String :=
  ⟨((s.data.dropWhile Char.isWhitespace).reverse.dropWhile Char.isWhitespace).reverse⟩

/-- Python `str.split('.')` on the character list: the maximal run of
parts separated by `'.'`, where an empty string yields one empty part. -/
def pySplitDotAux : List Char → List (List Char)
  | [] => [[]]
  | c :: r =>
    if c = '.' then [] :: pySplitDotAux r
    else
      match pySplitDotAux r with
      | [] => [[c]]
      | p :: ps => (c :: p) :: ps

/-- `validate_state_identifier` of `src/utils/validators.py` on a string:
the regex `^\d+(\.\d+)*$`, i.e. every dot-separated part is a nonempty
run of decimal digits. -/
def validate_state_identifier_str (s : String) : Bool :=
  (pySplitDotAux s.data).all fun p => !p.isEmpty && p.all Char.isDigit

/-- Python `int(s)` on an already-stripped string, for an optional ASCII
sign followed by decimal digits; exotic accepted spellings of Python
(underscore grouping, non-ASCII digits) are outside the model.  `none`
models the `ValueError` branch. -/
def pyIntOfString? (s : String) : Option Int :=
  if s.data = [] then none
  else if s.data.head? = some '-' then
    if s.data.tail ≠ [] ∧ s.data.tail.all Char.isDigit then
      some (-(digitsVal s.data.tail : Int))
    else none
  else if s.data.head? = some '+' then
    if s.data.tail ≠ [] ∧ s.data.tail.all Char.isDigit then
      some ((digitsVal s.data.tail : Int))
    else none
  else if s.data.all Char.isDigit then some ((digitsVal s.data : Int)) else none

/-- A state identifier: either an integer sequence id or a hierarchical
id string (`Union[int, str]` in the source). -/
inductive Ident where
  | seq (n : Int)
  | hier (s : String)
deriving DecidableEq

/-- `parse_state_identifier` of `src/utils/validators.py`: strip the
input, return a positive integer if it parses as an `int`, otherwise the
string itself if it matches the hierarchical-id format, otherwise
nothing. -/
def parse_state_identifier (s : String) : Option Ident :=
  match pyIntOfString? (pyStrip s) with
  | some n => if 0 < n then some (.seq n) else none
  | none =>
    if validate_state_identifier_str (pyStrip s) then some (.hier (pyStrip s)) else none

/-- Lookup in a Python-`dict`-as-association-list. -/
def getVal? {α : Type} : List (String × α) → String → Option α
  | [], _ => none
  | (k, v) :: r, k' => if k = k' then some v else getVal? r k'

/-- Python `dict` assignment: replace the value of an existing key in
place, append a fresh key at the end. -/
def dictInsert {α : Type} : List (String × α) → String → α → List (String × α)
  | [], k, v => [(k, v)]
  | (k', v') :: r, k, v => if k' = k then (k, v) :: r else (k', v') :: dictInsert r k v

/-- The keys of a Python-`dict`-as-association-list, in insertion order. -/
def keys {α : Type} (l : List (String × α)) : List String := l.map Prod.fst

/-- Metadata dictionary of a state; the only key the source ever reads
is the boolean `"is_branch"`. -/
abbrev Metadata := List (String × Bool)

/-- `ConversationState` of `src/core/state.py`: one immutable
conversational turn. -/
structure ConversationState where
  hierarchical_id : String
  sequence_id : Nat
  parent_id : Option String
  message : String
  response : String
  model : String
  timestamp : Nat
  tags : Finset String
  metadata : Metadata
deriving DecidableEq

/-- `ConversationState.is_branch`: `self.metadata.get('is_branch', False)`. -/
def ConversationState.is_branch (s : ConversationState) : Bool :=
  (getVal? s.metadata "is_branch").getD false

/-- `ConversationState.is_root`: `self.parent_id is None`. -/
def ConversationState.is_root (s : ConversationState) : Bool :=
  s.parent_id.isNone

/-- `ConversationState.with_tags`: a new state with the given tag set
and every other field copied. -/
def ConversationState.with_tags (s : ConversationState) (tags : Finset String) :
    ConversationState :=
  { hierarchical_id := s.hierarchical_id
    sequence_id := s.sequence_id
    parent_id := s.parent_id
    message := s.message
    response := s.response
    model := s.model
    timestamp := s.timestamp
    tags := tags
    metadata := s.metadata }

/-- `ConversationState.add_tag`: adds `tag.strip()` to the tag set. -/
def ConversationState.add_tag (s : ConversationState) (tag : String) : ConversationState :=
  s.with_tags (insert (pyStrip tag) s.tags)

/-- `ConversationState.remove_tag`: discards `tag.strip()` from the tag
set. -/
def ConversationState.remove_tag (s : ConversationState) (tag : String) : ConversationState :=
  s.with_tags (s.tags.erase (pyStrip tag))

/-- Serialised form of a state (`ConversationState.to_dict`): `tags`
becomes a list, `timestamp` a sortable textual instant (modelled by the
instant itself). -/
structure StateDict where
  hierarchical_id : String
  sequence_id : Nat
  parent_id : Option String
  message : String
  response : String
  model : String
  timestamp : Nat
  tags : List String
  metadata : Metadata
deriving DecidableEq

/-- `ConversationState.to_dict`. -/
def ConversationState.to_dict (s : ConversationState) : StateDict :=
  { hierarchical_id := s.hierarchical_id
    sequence_id := s.sequence_id
    parent_id := s.parent_id
    message := s.message
    response := s.response
    model := s.model
    timestamp := s.timestamp
    tags := s.tags.sort (· ≤ ·)
    metadata := s.metadata }

/-- `ConversationState.from_dict`. -/
def ConversationState.from_dict (d : StateDict) : ConversationState :=
  { hierarchical_id := d.hierarchical_id
    sequence_id := d.sequence_id
    parent_id := d.parent_id
    message := d.message
    response := d.response
    model := d.model
    timestamp := d.timestamp
    tags := d.tags.toFinset
    metadata := d.metadata }

/-- Error raised by `ConversationTree.add_state` when the parent is
missing (`StateNotFoundError`). -/
inductive TreeErr where
  | stateNotFound (id : String)
deriving DecidableEq

/-- `ConversationTree` of `src/core/tree.py`: the authoritative state
store plus its derived indices.  `states` is the insertion-ordered
dictionary; `sequence_index`, `hierarchy_index` and the defaultdict
`parent_children` are modelled as their lookup functions. -/
structure ConversationTree where
  states : List (String × ConversationState)
  sequence_index : Int → Option String
  hierarchy_index : String → Option Nat
  parent_children : String → List String
  current_state : Option String
  sequence_counter : Nat

/-- A freshly constructed `ConversationTree()`. -/
def emptyTree : ConversationTree :=
  { states := []
    sequence_index := fun _ => none
    hierarchy_index := fun _ => none
    parent_children := fun _ => []
    current_state := none
    sequence_counter := 0 }

/-- `state_count` property. -/
def state_count (t : ConversationTree) : Nat := t.states.length

/-- `current_state_id` property. -/
def current_state_id (t : ConversationTree) : Option String := t.current_state

/-- `current_state` property: `self._states.get(self._current_state)`
when the current pointer is truthy. -/
def current_state_prop (t : ConversationTree) : Option ConversationState :=
  match t.current_state with
  | none => none
  | some c => if c = "" then none else getVal? t.states c

/-- One update of the `sequence -> hierarchical_id` index. -/
def seqIdxInsert (f : Int → Option String) (key : String) (s : ConversationState) :
    Int → Option String :=
  fun i => if i = (s.sequence_id : Int) then some key else f i

/-- One update of the `hierarchical_id -> sequence` index. -/
def hierIdxInsert (f : String → Option Nat) (key : String) (s : ConversationState) :
    String → Option Nat :=
  fun x => if x = key then some s.sequence_id else f x

/-- One update of the parent-to-children index: append the key to the
parent's child list when the state's `parent_id` is truthy. -/
def pcInsert (f : String → List String) (key : String) (s : ConversationState) :
    String → List String :=
  match s.parent_id with
  | none => f
  | some q => if q = "" then f else fun x => if x = q then f q ++ [key] else f x

/-- Insert a state into the store and all three derived indices, as both
`add_state` and `from_dict` do. -/
def insertIndexed (t : ConversationTree) (key : String) (st : ConversationState) :
    ConversationTree :=
  { t with
    states := dictInsert t.states key st
    sequence_index := seqIdxInsert t.sequence_index key st
    hierarchy_index := hierIdxInsert t.hierarchy_index key st
    parent_children := pcInsert t.parent_children key st }

/-- `ConversationTree.add_state`.  The sequence counter is incremented
before the parent check, so a failing call still advances it; on
success the new state is inserted into every index, appended to the
parent's child list, and made current.  `ts` models `datetime.now()`. -/
def add_state (t : ConversationTree) (parent_id : Option String)
    (message response model : String) (ts : Nat) :
    Except TreeErr ConversationState × ConversationTree :=
  let c := t.sequence_counter + 1
  let t1 := { t with sequence_counter := c }
  match parent_id with
  | none =>
    let hid := natToStr c
    let st : ConversationState :=
      { hierarchical_id := hid, sequence_id := c, parent_id := none, message := message
        response := response, model := model, timestamp := ts, tags := ∅, metadata := [] }
    (.ok st, { insertIndexed t1 hid st with current_state := some hid })
  | some p =>
    match getVal? t.states p with
    | none => (.error (.stateNotFound p), t1)
    | some _ =>
      let hid := p ++ "." ++ natToStr ((t.parent_children p).length + 1)
      let st : ConversationState :=
        { hierarchical_id := hid, sequence_id := c, parent_id := some p, message := message
          response := response, model := model, timestamp := ts, tags := ∅, metadata := [] }
      (.ok st, { insertIndexed t1 hid st with current_state := some hid })

/-- `ConversationTree.find_state`: lookup by sequence id through the
sequence index, or directly by hierarchical id. -/
def find_state (t : ConversationTree) : Ident → Option ConversationState
  | .seq i =>
    match t.sequence_index i with
    | none => none
    | some hid => if hid = "" then none else getVal? t.states hid
  | .hier s => getVal? t.states s

/-- The identifier pre-processing of `navigate_to`:
`parse_state_identifier(str(identifier)) if isinstance(identifier, str)
else identifier`. -/
def navParse : Ident → Option Ident
  | .hier s => parse_state_identifier s
  | .seq i => some (.seq i)

/-- `ConversationTree.navigate_to`: parse string identifiers, resolve
via `find_state`, set the current pointer on a hit.  Returns the
`bool` result together with the (possibly updated) tree. -/
def navigate_to (t : ConversationTree) (ident : Ident) : Bool × ConversationTree :=
  match navParse ident with
  | none => (false, t)
  | some pid =>
    match find_state t pid with
    | some st => (true, { t with current_state := some st.hierarchical_id })
    | none => (false, t)

/-- `ConversationTree.get_children`: the stored records of the parent's
child list, skipping ids missing from the store. -/
def get_children (t : ConversationTree) (state_id : String) : List ConversationState :=
  (t.parent_children state_id).filterMap fun cid => getVal? t.states cid

/-- `ConversationTree.get_parent`: the stored record of the state's
truthy `parent_id`, if any. -/
def get_parent (t : ConversationTree) (state_id : String) : Option ConversationState :=
  match getVal? t.states state_id with
  | none => none
  | some s =>
    match s.parent_id with
    | none => none
    | some p => if p = "" then none else getVal? t.states p

/-- The `while current_id and current_id in self._states` loop of
`get_path_to_root`, prepending each visited record.  The source loop is
unbounded (it diverges on a cyclic store); `fuel` bounds the iteration
count and `fuel = state_count` completes the walk on every acyclic
store. -/
def pathGo (states : List (String × ConversationState)) :
    Nat → Option String → List ConversationState → List ConversationState
  | 0, _, acc => acc
  | fuel + 1, cur, acc =>
    match cur with
    | none => acc
    | some cid =>
      if cid = "" then acc
      else
        match getVal? states cid with
        | none => acc
        | some s => pathGo states fuel s.parent_id (s :: acc)

/-- `ConversationTree.get_path_to_root`: walk `parent_id` links from the
given id, collecting records root-first; ids absent from the store end
the walk immediately. -/
def get_path_to_root (t : ConversationTree) (state_id : String) : List ConversationState :=
  pathGo t.states t.states.length (some state_id) []

/-- One `{"role": ..., "content": ...}` message. -/
structure ChatMessage where
  role : String
  content : String
deriving DecidableEq

/-- `ConversationTree.update_state`: replace the stored record at
`state_id`, refusing a missing id or a record whose `hierarchical_id`
differs from `state_id`; the rejection is the `False` return of the
source. -/
def update_state (t : ConversationTree) (state_id : String)
    (updated_state : ConversationState) : Bool × ConversationTree :=
  match getVal? t.states state_id with
  | none => (false, t)
  | some _ =>
    if updated_state.hierarchical_id ≠ state_id then (false, t)
    else (true, { t with states := dictInsert t.states state_id updated_state })

/-- `ConversationTree.get_conversation_messages`: flatten the
path-to-root of the given id (default: the current pointer) into
user/assistant message pairs. -/
def get_conversation_messages (t : ConversationTree) (state_id : Option String) :
    List ChatMessage :=
  let sid := match state_id with
    | none => t.current_state
    | some s => some s
  match sid with
  | none => []
  | some s =>
    if s = "" then []
    else
      (get_path_to_root t s).foldl
        (fun msgs st => msgs ++ [⟨"user", st.message⟩, ⟨"assistant", st.response⟩]) []

/-- Informational metadata block of a serialised tree. -/
structure TreeMeta where
  created_at : Nat
  state_count : Nat
deriving DecidableEq

/-- Serialised form of a tree (`ConversationTree.to_dict`): the
authoritative store, the current pointer and the counter; never the
derived indices. -/
structure TreeDict where
  states : List (String × StateDict)
  current_state : Option String
  sequence_counter : Nat
  metadata : TreeMeta

/-- `ConversationTree.to_dict`; `now` models `datetime.now()` of the
informational metadata. -/
def to_dict (t : ConversationTree) (now : Nat) : TreeDict :=
  { states := t.states.map fun p => (p.1, p.2.to_dict)
    current_state := t.current_state
    sequence_counter := t.sequence_counter
    metadata := { created_at := now, state_count := t.states.length } }

/-- `ConversationTree.from_dict`: seed counter and current pointer, then
rebuild the store and every derived index from the serialised records in
order. -/
def from_dict (d : TreeDict) : ConversationTree :=
  d.states.foldl
    (fun tree p => insertIndexed tree p.1 (ConversationState.from_dict p.2))
    { emptyTree with
      sequence_counter := d.sequence_counter
      current_state := d.current_state }

/-- The distinct failure conditions of `TreeNavigator` raise sites in
`src/core/navigation.py`. -/
inductive NavErr where
  | noCurrentState
  | alreadyAtRoot
  | parentNotFound
  | noChildren
  | invalidBranchIndex (idx : Int) (available : Nat)
deriving DecidableEq

/-- `TreeNavigator.go_up`: fail without a current state, fail at a root,
otherwise resolve the parent and navigate to it. -/
def go_up (t : ConversationTree) : Except NavErr ConversationState × ConversationTree :=
  match current_state_prop t with
  | none => (.error .noCurrentState, t)
  | some cur =>
    match cur.parent_id with
    | none => (.error .alreadyAtRoot, t)
    | some _ =>
      match get_parent t cur.hierarchical_id with
      | none => (.error .parentNotFound, t)
      | some parent => (.ok parent, (navigate_to t (.hier parent.hierarchical_id)).2)

/-- `TreeNavigator.go_down`: fail without a current state, fail when the
current state has no children, fail on a 1-based index outside the child
list, otherwise navigate to the chosen child. -/
def go_down (t : ConversationTree) (branch_index : Int) :
    Except NavErr ConversationState × ConversationTree :=
  match current_state_prop t with
  | none => (.error .noCurrentState, t)
  | some cur =>
    let children := get_children t cur.hierarchical_id
    if children.isEmpty then (.error .noChildren, t)
    else if h : 1 ≤ branch_index ∧ branch_index ≤ (children.length : Int) then
      let target := children.get ⟨(branch_index - 1).toNat, by omega⟩
      (.ok target, (navigate_to t (.hier target.hierarchical_id)).2)
    else (.error (.invalidBranchIndex branch_index children.length), t)

/-- The operations a conversation session performs on the tree: adding a
turn, navigating, and the with-tags update pattern used by the tag
commands (`find_state` then `update_state` with a tags-only copy). -/
inductive Op where
  | add (parent : Option String) (message response model : String) (ts : Nat)
  | nav (ident : Ident)
  | tagUpd (id : String) (tags : Finset String)

/-- Apply one operation, keeping the tree of both the success and the
failure outcome. -/
def applyOp (t : ConversationTree) : Op → ConversationTree
  | .add p m r mo ts => (add_state t p m r mo ts).2
  | .nav i => (navigate_to t i).2
  | .tagUpd id tags =>
    match getVal? t.states id with
    | none => t
    | some s => (update_state t id (s.with_tags tags)).2

/-- Run a list of operations on a fresh tree. -/
def runOps (ops : List Op) : ConversationTree := ops.foldl applyOp emptyTree

/-- Trees reachable from a fresh tree by `add_state` (successful or
failed), `navigate_to` and with-tags `update_state` operations. -/
def Reach (t : ConversationTree) : Prop := ∃ ops : List Op, runOps ops = t

/-- One recorded `add_state` call. -/
structure AddCall where
  parent : Option String
  message : String
  response : String
  model : String
  ts : Nat

/-- Run a list of `add_state` calls, keeping the tree of failed calls
as well. -/
def runAdds (t : ConversationTree) : List AddCall → ConversationTree
  | [] => t
  | c :: r => runAdds (add_state t c.parent c.message c.response c.model c.ts).2 r

/-- Success flags of a list of `add_state` calls, in call order. -/
def runAddsTrace (t : ConversationTree) : List AddCall → List Bool
  | [] => []
  | c :: r =>
    let step := add_state t c.parent c.message c.response c.model c.ts
    (match step.1 with | .ok _ => true | .error _ => false) :: runAddsTrace step.2 r

/-- The 1-based positions of the `true` entries of a flag list, counting
from `k`. -/
def trueIndicesFrom (k : Nat) : List Bool → List Nat
  | [] => []
  | b :: r => if b then k :: trueIndicesFrom (k + 1) r else trueIndicesFrom (k + 1) r

/-- Strip the final dot-segment of a hierarchical id: everything before
the last `'.'`, or nothing when the id has no dot. -/
def stripLastSegment (s : String) : Option String :=
  match s.data.reverse.dropWhile (fun c => c ≠ '.') with
  | [] => none
  | _ :: rest => some ⟨rest.reverse⟩

/-! ### Dictionary lemmas -/

theorem getVal?_mem {α : Type} {l : List (String × α)} {k : String} {v : α}
    (h : getVal? l k = some v) : (k, v) ∈ l := by
  induction l with
  | nil => simp [getVal?] at h
  | cons p r ih =>
    obtain ⟨k', v'⟩ := p
    by_cases hk : k' = k
    · subst hk
      have hv : v' = v := by simpa [getVal?] using h
      subst hv
      exact List.mem_cons_self _ _
    · simp only [getVal?, if_neg hk] at h
      exact List.mem_cons_of_mem _ (ih h)

theorem getVal?_isSome_of_mem {α : Type} {l : List (String × α)} {k : String} {v : α}
    (h : (k, v) ∈ l) : ∃ w, getVal? l k = some w := by
  induction l with
  | nil => simp at h
  | cons p r ih =>
    obtain ⟨k', v'⟩ := p
    by_cases hk : k' = k
    · exact ⟨v', by simp [getVal?, hk]⟩
    · rcases List.mem_cons.mp h with h1 | h2
      · exact absurd (congrArg Prod.fst h1).symm hk
      · obtain ⟨w, hw⟩ := ih h2
        exact ⟨w, by simp [getVal?, hk, hw]⟩

theorem getVal?_eq_none_iff {α : Type} {l : List (String × α)} {k : String} :
    getVal? l k = none ↔ k ∉ keys l := by
  induction l with
  | nil => simp [getVal?, keys]
  | cons p r ih =>
    obtain ⟨k', v'⟩ := p
    by_cases hk : k' = k
    · subst hk
      simp [getVal?, keys]
    · simp only [getVal?, if_neg hk, keys, List.map_cons, List.mem_cons]
      rw [ih]
      constructor
      · rintro h (rfl | hm)
        · exact hk rfl
        · exact h (by simpa [keys] using hm)
      · intro h hm
        exact h (Or.inr (by simpa [keys] using hm))

theorem getVal?_of_mem {α : Type} {l : List (String × α)} {k : String} {v : α}
    (hnd : (keys l).Nodup) (h : (k, v) ∈ l) : getVal? l k = some v := by
  induction l with
  | nil => simp at h
  | cons p r ih =>
    obtain ⟨k', v'⟩ := p
    simp only [keys, List.map_cons, List.nodup_cons] at hnd
    rcases List.mem_cons.mp h with h1 | h2
    · obtain ⟨rfl, rfl⟩ : k = k' ∧ v = v' := by
        simpa [Prod.ext_iff] using h1
      simp [getVal?]
    · have hk : k' ≠ k := by
        rintro rfl
        exact hnd.1 (by simpa [keys] using List.mem_map_of_mem Prod.fst h2)
      simp [getVal?, hk, ih hnd.2 h2]

theorem dictInsert_fresh {α : Type} {l : List (String × α)} {k : String} (v : α)
    (h : getVal? l k = none) : dictInsert l k v = l ++ [(k, v)] := by
  induction l with
  | nil => simp [dictInsert]
  | cons p r ih =>
    obtain ⟨k', v'⟩ := p
    by_cases hk : k' = k
    · subst hk; simp [getVal?] at h
    · simp only [getVal?, if_neg hk] at h
      simp [dictInsert, hk, ih h]

theorem getVal?_append_left {α : Type} {l₁ : List (String × α)} (l₂ : List (String × α))
    {k : String} {v : α} (h : getVal? l₁ k = some v) :
    getVal? (l₁ ++ l₂) k = some v := by
  induction l₁ with
  | nil => simp [getVal?] at h
  | cons p r ih =>
    obtain ⟨k', v'⟩ := p
    by_cases hk : k' = k
    · subst hk
      simp only [getVal?, if_pos rfl] at h ⊢
      exact h
    · simp only [getVal?, if_neg hk] at h ⊢
      exact ih h

theorem getVal?_append_right {α : Type} {l₁ : List (String × α)} (l₂ : List (String × α))
    {k : String} (h : getVal? l₁ k = none) :
    getVal? (l₁ ++ l₂) k = getVal? l₂ k := by
  induction l₁ with
  | nil => simp
  | cons p r ih =>
    obtain ⟨k', v'⟩ := p
    by_cases hk : k' = k
    · subst hk; simp [getVal?] at h
    · simp only [getVal?, if_neg hk] at h ⊢
      exact ih h

/-- Replacing an existing key: the store decomposes around its unique
occurrence. -/
theorem dictInsert_replace {α : Type} {l : List (String × α)} {k : String} {v : α}
    (hnd : (keys l).Nodup) (h : getVal? l k = some v) (v' : α) :
    ∃ l₁ l₂, l = l₁ ++ (k, v) :: l₂ ∧ k ∉ keys l₁ ∧
      dictInsert l k v' = l₁ ++ (k, v') :: l₂ := by
  induction l with
  | nil => simp [getVal?] at h
  | cons p r ih =>
    obtain ⟨k', v₀⟩ := p
    simp only [keys, List.map_cons, List.nodup_cons] at hnd
    by_cases hk : k' = k
    · subst hk
      have hv : v₀ = v := by simpa [getVal?] using h
      subst hv
      exact ⟨[], r, rfl, by simp [keys], by simp [dictInsert]⟩
    · simp only [getVal?, if_neg hk] at h
      obtain ⟨l₁, l₂, hl, hk1, hins⟩ := ih hnd.2 h
      refine ⟨(k', v₀) :: l₁, l₂, by simp [hl], ?_, by simp [dictInsert, hk, hins]⟩
      simp only [keys, List.map_cons, List.mem_cons]
      rintro (rfl | hm)
      · exact hk rfl
      · exact hk1 hm

theorem keys_dictInsert_replace {α : Type} {l : List (String × α)} {k : String} {v : α}
    (h : getVal? l k = some v) (v' : α) : keys (dictInsert l k v') = keys l := by
  induction l with
  | nil => simp [getVal?] at h
  | cons p r ih =>
    obtain ⟨k', v₀⟩ := p
    by_cases hk : k' = k
    · subst hk; simp [dictInsert, keys]
    · simp only [getVal?, if_neg hk] at h
      have := ih h
      simp only [keys] at this
      simp [dictInsert, hk, keys, this]

/-! ### Decimal numeral strings -/

theorem digitChar_isDigit : ∀ d < 10, (digitChar d).isDigit = true := by decide

theorem digitChar_toNat : ∀ d < 10, (digitChar d).toNat = 48 + d := by decide

theorem isDigit_ne_dot {c : Char} (h : c.isDigit = true) : c ≠ '.' := by
  rintro rfl
  simp at h

theorem isDigit_ne_minus {c : Char} (h : c.isDigit = true) : c ≠ '-' := by
  rintro rfl
  simp at h

theorem isDigit_ne_plus {c : Char} (h : c.isDigit = true) : c ≠ '+' := by
  rintro rfl
  simp at h

theorem isDigit_not_ws {c : Char} (h : c.isDigit = true) : c.isWhitespace = false := by
  revert h
  simp only [Char.isDigit, Char.isWhitespace]
  rintro h
  simp only [Bool.and_eq_true, decide_eq_true_eq] at h
  simp only [Bool.or_eq_false_iff, decide_eq_false_iff_not]
  refine ⟨⟨⟨?_, ?_⟩, ?_⟩, ?_⟩ <;> rintro rfl <;> revert h <;> decide

theorem toDigitsAux_fuel (n : Nat) : ∀ f, n < f → toDigitsAux f n = toDigitsAux (n + 1) n := by
  induction n using Nat.strong_induction_on with
  | _ n ih =>
    intro f hf
    obtain ⟨f', rfl⟩ : ∃ f', f = f' + 1 := ⟨f - 1, by omega⟩
    by_cases h10 : n < 10
    · simp [toDigitsAux, h10]
    · have hdiv : n / 10 < n := Nat.div_lt_self (by omega) (by omega)
      have h1 := ih (n / 10) hdiv f' (by omega)
      have h2 := ih (n / 10) hdiv n (by omega)
      simp only [toDigitsAux, if_neg h10]
      rw [h1, h2]

/-- One-step unfolding of the digit string of `n`. -/
theorem natToStr_data_eq (n : Nat) :
    (natToStr n).data =
      if n < 10 then [digitChar n] else (natToStr (n / 10)).data ++ [digitChar (n % 10)] := by
  have hunf : (natToStr n).data
      = if n < 10 then [digitChar n] else toDigitsAux n (n / 10) ++ [digitChar (n % 10)] := rfl
  rw [hunf]
  by_cases h10 : n < 10
  · rw [if_pos h10, if_pos h10]
  · have hdiv : n / 10 < n := Nat.div_lt_self (by omega) (by omega)
    rw [if_neg h10, if_neg h10, toDigitsAux_fuel (n / 10) n hdiv]
    rfl

theorem natToStr_all_digits (n : Nat) : ∀ c ∈ (natToStr n).data, c.isDigit = true := by
  induction n using Nat.strong_induction_on with
  | _ n ih =>
    intro c hc
    rw [natToStr_data_eq] at hc
    by_cases h10 : n < 10
    · rw [if_pos h10] at hc
      simp only [List.mem_singleton] at hc
      subst hc
      exact digitChar_isDigit n h10
    · rw [if_neg h10] at hc
      have hdiv : n / 10 < n := Nat.div_lt_self (by omega) (by omega)
      rcases List.mem_append.mp hc with h | h
      · exact ih (n / 10) hdiv c h
      · simp only [List.mem_singleton] at h
        subst h
        exact digitChar_isDigit _ (Nat.mod_lt _ (by omega))

theorem natToStr_ne_nil (n : Nat) : (natToStr n).data ≠ [] := by
  rw [natToStr_data_eq]
  by_cases h10 : n < 10 <;> simp [h10]

theorem digitsVal_append_singleton (l : List Char) (c : Char) :
    digitsVal (l ++ [c]) = 10 * digitsVal l + (c.toNat - 48) := by
  simp [digitsVal, List.foldl_append]

theorem digitsVal_natToStr (n : Nat) : digitsVal (natToStr n).data = n := by
  induction n using Nat.strong_induction_on with
  | _ n ih =>
    rw [natToStr_data_eq]
    by_cases h10 : n < 10
    · simp [if_pos h10, digitsVal, digitChar_toNat n h10]
    · have hdiv : n / 10 < n := Nat.div_lt_self (by omega) (by omega)
      rw [if_neg h10, digitsVal_append_singleton, ih (n / 10) hdiv,
        digitChar_toNat _ (Nat.mod_lt _ (by omega))]
      omega

theorem natToStr_inj_data {m n : Nat} (h : (natToStr m).data = (natToStr n).data) : m = n := by
  have := congrArg digitsVal h
  simpa [digitsVal_natToStr] using this

theorem natToStr_injective {m n : Nat} (h : natToStr m = natToStr n) : m = n :=
  natToStr_inj_data (congrArg String.data h)

theorem dot_not_mem_natToStr (n : Nat) : '.' ∉ (natToStr n).data := by
  intro h
  exact isDigit_ne_dot (natToStr_all_digits n _ h) rfl

/-! ### Strip, split, validation -/

theorem dropWhile_eq_self_of_forall {p : Char → Bool} {l : List Char}
    (h : ∀ c ∈ l, p c = false) : l.dropWhile p = l := by
  cases l with
  | nil => rfl
  | cons a r => simp [List.dropWhile_cons, h a (List.mem_cons_self a r)]

theorem dropWhile_eq_nil_of_forall {p : Char → Bool} {l : List Char}
    (h : ∀ c ∈ l, p c = true) : l.dropWhile p = [] := by
  induction l with
  | nil => rfl
  | cons a r ih =>
    simp [List.dropWhile_cons, h a (List.mem_cons_self a r),
      ih fun c hc => h c (List.mem_cons_of_mem a hc)]

theorem dropWhile_append_of_forall {p : Char → Bool} {l₁ : List Char} (l₂ : List Char)
    (h : ∀ c ∈ l₁, p c = true) : (l₁ ++ l₂).dropWhile p = l₂.dropWhile p := by
  induction l₁ with
  | nil => rfl
  | cons a r ih =>
    simp [List.dropWhile_cons, h a (List.mem_cons_self a r),
      ih fun c hc => h c (List.mem_cons_of_mem a hc)]

theorem pyStrip_of_forall {s : String} (h : ∀ c ∈ s.data, c.isWhitespace = false) :
    pyStrip s = s := by
  unfold pyStrip
  rw [dropWhile_eq_self_of_forall h,
    dropWhile_eq_self_of_forall (fun c hc => h c (List.mem_reverse.mp hc)),
    List.reverse_reverse]

theorem pySplitDotAux_ne_nil (l : List Char) : pySplitDotAux l ≠ [] := by
  cases l with
  | nil => simp [pySplitDotAux]
  | cons c r =>
    by_cases hc : c = '.'
    · simp [pySplitDotAux, hc]
    · simp only [pySplitDotAux, if_neg hc]
      cases pySplitDotAux r <;> simp

theorem pySplitDotAux_append_dot (l₁ l₂ : List Char) :
    pySplitDotAux (l₁ ++ '.' :: l₂) = pySplitDotAux l₁ ++ pySplitDotAux l₂ := by
  induction l₁ with
  | nil => simp [pySplitDotAux]
  | cons c r ih =>
    by_cases hc : c = '.'
    · subst hc
      simp [pySplitDotAux, ih]
    · obtain ⟨p, ps, hsplit⟩ : ∃ p ps, pySplitDotAux r = p :: ps := by
        cases hsp : pySplitDotAux r with
        | nil => exact absurd hsp (pySplitDotAux_ne_nil r)
        | cons p ps => exact ⟨p, ps, rfl⟩
      have h1 : pySplitDotAux (c :: r) = (c :: p) :: ps := by
        simp only [pySplitDotAux, if_neg hc, hsplit]
      have h2 : pySplitDotAux (c :: (r ++ '.' :: l₂)) = (c :: p) :: (ps ++ pySplitDotAux l₂) := by
        have hmid : pySplitDotAux (r ++ '.' :: l₂) = p :: (ps ++ pySplitDotAux l₂) := by
          rw [ih, hsplit]
          rfl
        simp only [pySplitDotAux, if_neg hc, hmid]
      simp only [List.cons_append, h2, h1]

theorem pySplitDotAux_no_dot {l : List Char} (h : '.' ∉ l) : pySplitDotAux l = [l] := by
  induction l with
  | nil => rfl
  | cons c r ih =>
    have hc : c ≠ '.' := fun hc => h (hc ▸ List.mem_cons_self c r)
    simp only [pySplitDotAux, if_neg hc, ih fun hr => h (List.mem_cons_of_mem c hr)]

theorem mem_pySplitDotAux {l : List Char} {c : Char} (h : c ∈ l) :
    c = '.' ∨ ∃ p ∈ pySplitDotAux l, c ∈ p := by
  induction l with
  | nil => simp at h
  | cons a r ih =>
    by_cases ha : a = '.'
    · subst ha
      rcases List.mem_cons.mp h with rfl | hr
      · exact Or.inl rfl
      · rcases ih hr with h1 | ⟨p, hp, hcp⟩
        · exact Or.inl h1
        · exact Or.inr ⟨p, by simp [pySplitDotAux, hp], hcp⟩
    · simp only [pySplitDotAux, if_neg ha]
      cases hsplit : pySplitDotAux r with
      | nil => exact absurd hsplit (pySplitDotAux_ne_nil r)
      | cons p ps =>
        rcases List.mem_cons.mp h with rfl | hr
        · exact Or.inr ⟨c :: p, by simp, List.mem_cons_self c p⟩
        · rcases ih hr with h1 | ⟨q, hq, hcq⟩
          · exact Or.inl h1
          · rw [hsplit] at hq
            rcases List.mem_cons.mp hq with rfl | hq'
            · exact Or.inr ⟨a :: q, by simp, List.mem_cons_of_mem a hcq⟩
            · exact Or.inr ⟨q, by simp [hq'], hcq⟩

theorem validate_chars {s : String} (h : validate_state_identifier_str s = true) :
    ∀ c ∈ s.data, c.isDigit = true ∨ c = '.' := by
  intro c hc
  rcases mem_pySplitDotAux hc with h1 | ⟨p, hp, hcp⟩
  · exact Or.inr h1
  · unfold validate_state_identifier_str at h
    rw [List.all_eq_true] at h
    have := h p hp
    simp only [Bool.and_eq_true, List.all_eq_true] at this
    exact Or.inl (this.2 c hcp)

theorem validate_not_ws {s : String} (h : validate_state_identifier_str s = true) :
    ∀ c ∈ s.data, c.isWhitespace = false := by
  intro c hc
  rcases validate_chars h c hc with h1 | rfl
  · exact isDigit_not_ws h1
  · decide

theorem validate_natToStr (n : Nat) : validate_state_identifier_str (natToStr n) = true := by
  unfold validate_state_identifier_str
  rw [pySplitDotAux_no_dot (dot_not_mem_natToStr n)]
  simp only [List.all_cons, List.all_nil, Bool.and_true, Bool.and_eq_true,
    Bool.not_eq_true', List.all_eq_true]
  exact ⟨by simpa [List.isEmpty_iff] using natToStr_ne_nil n, natToStr_all_digits n⟩

/-- The data of a child id `p ++ "." ++ natToStr k`. -/
theorem childId_data (p : String) (k : Nat) :
    (p ++ "." ++ natToStr k).data = p.data ++ '.' :: (natToStr k).data := by
  simp [String.data_append]

theorem validate_childId {p : String} (k : Nat)
    (hp : validate_state_identifier_str p = true) :
    validate_state_identifier_str (p ++ "." ++ natToStr k) = true := by
  unfold validate_state_identifier_str
  rw [childId_data, pySplitDotAux_append_dot, pySplitDotAux_no_dot (dot_not_mem_natToStr k)]
  rw [List.all_append]
  unfold validate_state_identifier_str at hp
  rw [hp]
  simp only [Bool.true_and, List.all_cons, List.all_nil, Bool.and_true, Bool.and_eq_true,
    Bool.not_eq_true', List.all_eq_true]
  exact ⟨by simpa [List.isEmpty_iff] using natToStr_ne_nil k, natToStr_all_digits k⟩

theorem stripLastSegment_no_dot {s : String} (h : '.' ∉ s.data) :
    stripLastSegment s = none := by
  unfold stripLastSegment
  rw [dropWhile_eq_nil_of_forall]
  intro c hc
  simp only [decide_eq_true_eq]
  exact fun hcd => h (hcd ▸ List.mem_reverse.mp hc)

theorem stripLastSegment_append {p : String} {d : List Char} (h : '.' ∉ d) :
    stripLastSegment ⟨p.data ++ '.' :: d⟩ = some p := by
  unfold stripLastSegment
  simp only [List.reverse_append, List.reverse_cons]
  rw [List.append_assoc, List.singleton_append,
    dropWhile_append_of_forall _ (fun c hc => by
      simp only [decide_eq_true_eq]
      exact fun hcd => h (hcd ▸ List.mem_reverse.mp hc))]
  simp [List.dropWhile_cons]

theorem childId_has_dot (p : String) (k : Nat) : '.' ∈ (p ++ "." ++ natToStr k).data := by
  rw [childId_data]
  simp

theorem childId_inj {p₁ p₂ : String} {k₁ k₂ : Nat}
    (h : p₁ ++ "." ++ natToStr k₁ = p₂ ++ "." ++ natToStr k₂) : p₁ = p₂ ∧ k₁ = k₂ := by
  have hd : (p₁ ++ "." ++ natToStr k₁).data = (p₂ ++ "." ++ natToStr k₂).data :=
    congrArg String.data h
  rw [childId_data, childId_data] at hd
  have hp : p₁ = p₂ := by
    have h1 : stripLastSegment ⟨p₁.data ++ '.' :: (natToStr k₁).data⟩ = some p₁ :=
      stripLastSegment_append (dot_not_mem_natToStr k₁)
    have h2 : stripLastSegment ⟨p₂.data ++ '.' :: (natToStr k₂).data⟩ = some p₂ :=
      stripLastSegment_append (dot_not_mem_natToStr k₂)
    rw [hd] at h1
    rw [h1] at h2
    exact Option.some.inj h2
  subst hp
  have hlist : '.' :: (natToStr k₁).data = '.' :: (natToStr k₂).data :=
    List.append_cancel_left hd
  exact ⟨rfl, natToStr_inj_data (List.cons_injective hlist)⟩

theorem root_ne_childId (n : Nat) (p : String) (k : Nat) :
    natToStr n ≠ p ++ "." ++ natToStr k := by
  intro h
  exact dot_not_mem_natToStr n (h ▸ childId_has_dot p k)

/-! ### Identifier parsing lemmas -/

theorem pyIntOfString?_natToStr (n : Nat) : pyIntOfString? (natToStr n) = some (n : Int) := by
  cases hdata : (natToStr n).data with
  | nil => exact absurd hdata (natToStr_ne_nil n)
  | cons c r =>
    have hcdig : c.isDigit = true :=
      natToStr_all_digits n c (by rw [hdata]; exact List.mem_cons_self c r)
    have hall : (c :: r).all Char.isDigit = true := by
      rw [List.all_eq_true]
      intro x hx
      exact natToStr_all_digits n x (by rw [hdata]; exact hx)
    unfold pyIntOfString?
    rw [hdata]
    rw [if_neg (by simp : ¬(c :: r = [])),
      if_neg (by simpa using isDigit_ne_minus hcdig),
      if_neg (by simpa using isDigit_ne_plus hcdig)]
    rw [if_pos (by simpa using hall), ← hdata, digitsVal_natToStr]

theorem valid_head_digit {s : String} {c : Char} {r : List Char}
    (hval : validate_state_identifier_str s = true) (hdata : s.data = c :: r) :
    c.isDigit = true := by
  unfold validate_state_identifier_str at hval
  rw [hdata] at hval
  by_cases hc : c = '.'
  · subst hc
    rw [show pySplitDotAux ('.' :: r) = [] :: pySplitDotAux r from by simp [pySplitDotAux]]
      at hval
    simp at hval
  · obtain ⟨p, ps, hsplit⟩ : ∃ p ps, pySplitDotAux r = p :: ps := by
      cases hsp : pySplitDotAux r with
      | nil => exact absurd hsp (pySplitDotAux_ne_nil r)
      | cons p ps => exact ⟨p, ps, rfl⟩
    rw [show pySplitDotAux (c :: r) = (c :: p) :: ps from by
        simp only [pySplitDotAux, if_neg hc, hsplit]] at hval
    simp only [List.all_cons, Bool.and_eq_true] at hval
    exact hval.1.2.1

theorem pyIntOfString?_valid_dotted {s : String}
    (hval : validate_state_identifier_str s = true) (hdot : '.' ∈ s.data) :
    pyIntOfString? s = none := by
  cases hdata : s.data with
  | nil => rw [hdata] at hdot; simp at hdot
  | cons c r =>
    have hcdig : c.isDigit = true := valid_head_digit hval hdata
    have hnall : ¬((c :: r).all Char.isDigit = true) := by
      rw [List.all_eq_true]
      intro hall
      rw [hdata] at hdot
      exact isDigit_ne_dot (hall '.' hdot) rfl
    unfold pyIntOfString?
    rw [hdata]
    rw [if_neg (by simp : ¬(c :: r = [])),
      if_neg (by simpa using isDigit_ne_minus hcdig),
      if_neg (by simpa using isDigit_ne_plus hcdig),
      if_neg (by simpa using hnall)]

theorem parse_natToStr {n : Nat} (hn : 1 ≤ n) :
    parse_state_identifier (natToStr n) = some (.seq (n : Int)) := by
  unfold parse_state_identifier
  rw [pyStrip_of_forall fun c hc => isDigit_not_ws (natToStr_all_digits n c hc)]
  rw [pyIntOfString?_natToStr]
  have hpos : (0 : Int) < (n : Int) := by exact_mod_cast hn
  simp [hpos]

theorem parse_valid_dotted {s : String}
    (hval : validate_state_identifier_str s = true) (hdot : '.' ∈ s.data) :
    parse_state_identifier s = some (.hier s) := by
  unfold parse_state_identifier
  rw [pyStrip_of_forall (validate_not_ws hval)]
  rw [pyIntOfString?_valid_dotted hval hdot]
  simp [hval]

/-! ### Rebuilt indices and the reachable-tree invariant -/

/-- Rebuild of the sequence index from the store, in store order. -/
def rebuildSeq (l : List (String × ConversationState)) : Int → Option String :=
  l.foldl (fun f p => seqIdxInsert f p.1 p.2) fun _ => none

/-- Rebuild of the hierarchy index from the store, in store order. -/
def rebuildHier (l : List (String × ConversationState)) : String → Option Nat :=
  l.foldl (fun f p => hierIdxInsert f p.1 p.2) fun _ => none

/-- Rebuild of the parent-to-children index from the store, in store
order. -/
def rebuildPC (l : List (String × ConversationState)) : String → List String :=
  l.foldl (fun f p => pcInsert f p.1 p.2) fun _ => []

theorem rebuildSeq_append (l : List (String × ConversationState))
    (p : String × ConversationState) :
    rebuildSeq (l ++ [p]) = seqIdxInsert (rebuildSeq l) p.1 p.2 := by
  simp [rebuildSeq, List.foldl_append]

theorem rebuildHier_append (l : List (String × ConversationState))
    (p : String × ConversationState) :
    rebuildHier (l ++ [p]) = hierIdxInsert (rebuildHier l) p.1 p.2 := by
  simp [rebuildHier, List.foldl_append]

theorem rebuildPC_append (l : List (String × ConversationState))
    (p : String × ConversationState) :
    rebuildPC (l ++ [p]) = pcInsert (rebuildPC l) p.1 p.2 := by
  simp [rebuildPC, List.foldl_append]

/-- Structural invariant of every tree reachable by the session
operations: the store is keyed by the records' own hierarchical ids, the
ids encode the parent chain, the child lists enumerate the branch slots
in order, and the three derived indices agree with their rebuilds from
the store. -/
structure WF (t : ConversationTree) : Prop where
  key_eq : ∀ p ∈ t.states, p.2.hierarchical_id = p.1
  keys_nodup : (keys t.states).Nodup
  seq_nodup : (t.states.map fun p => p.2.sequence_id).Nodup
  seq_pos : ∀ p ∈ t.states, 1 ≤ p.2.sequence_id
  seq_le : ∀ p ∈ t.states, p.2.sequence_id ≤ t.sequence_counter
  valid_key : ∀ p ∈ t.states, validate_state_identifier_str p.1 = true
  root_form : ∀ p ∈ t.states, p.2.parent_id = none → p.1 = natToStr p.2.sequence_id
  child_mem : ∀ p ∈ t.states, ∀ q, p.2.parent_id = some q → p.1 ∈ t.parent_children q
  children_ids : ∀ q : String, ∀ j : Nat, ∀ c : String,
    (t.parent_children q)[j]? = some c → c = q ++ "." ++ natToStr (j + 1)
  children_stored : ∀ q : String, ∀ c ∈ t.parent_children q,
    ∃ s, getVal? t.states c = some s ∧ s.parent_id = some q
  parent_stored : ∀ p ∈ t.states, ∀ q, p.2.parent_id = some q →
    ∃ s, getVal? t.states q = some s ∧ s.sequence_id < p.2.sequence_id
  seq_eq : t.sequence_index = rebuildSeq t.states
  hier_eq : t.hierarchy_index = rebuildHier t.states
  pc_eq : t.parent_children = rebuildPC t.states

theorem WF.getVal_key {t : ConversationTree} (h : WF t) {k : String}
    {s : ConversationState} (hk : getVal? t.states k = some s) : s.hierarchical_id = k :=
  h.key_eq (k, s) (getVal?_mem hk)

theorem WF.key_valid {t : ConversationTree} (h : WF t) {k : String}
    {s : ConversationState} (hk : getVal? t.states k = some s) :
    validate_state_identifier_str k = true :=
  h.valid_key (k, s) (getVal?_mem hk)

theorem WF.key_ne_empty {t : ConversationTree} (h : WF t) {k : String}
    {s : ConversationState} (hk : getVal? t.states k = some s) : k ≠ "" := by
  intro hke
  subst hke
  exact absurd (h.key_valid hk) (by decide)

/-- Every stored key is either a root numeral or a child id of a branch
slot of its parent. -/
theorem WF.key_shape {t : ConversationTree} (h : WF t) {k : String}
    {s : ConversationState} (hmem : (k, s) ∈ t.states) :
    (s.parent_id = none ∧ k = natToStr s.sequence_id) ∨
      ∃ q j, s.parent_id = some q ∧ j < (t.parent_children q).length ∧
        k = q ++ "." ++ natToStr (j + 1) := by
  cases hpar : s.parent_id with
  | none => exact Or.inl ⟨rfl, h.root_form (k, s) hmem hpar⟩
  | some q =>
    have hcm : k ∈ t.parent_children q := h.child_mem (k, s) hmem q hpar
    obtain ⟨j, hj, hget⟩ := List.mem_iff_getElem.mp hcm
    refine Or.inr ⟨q, j, rfl, hj, ?_⟩
    exact h.children_ids q j k (by rw [List.getElem?_eq_getElem hj, hget])

theorem WF.fresh_root {t : ConversationTree} (h : WF t) :
    getVal? t.states (natToStr (t.sequence_counter + 1)) = none := by
  cases hv : getVal? t.states (natToStr (t.sequence_counter + 1)) with
  | none => rfl
  | some s =>
    exfalso
    have hmem := getVal?_mem hv
    rcases h.key_shape hmem with ⟨_, hk⟩ | ⟨q, j, _, _, hk⟩
    · have h1 : t.sequence_counter + 1 = s.sequence_id := natToStr_injective hk
      have h2 : s.sequence_id ≤ t.sequence_counter := h.seq_le _ hmem
      omega
    · exact root_ne_childId (t.sequence_counter + 1) q (j + 1) hk

theorem WF.fresh_child {t : ConversationTree} (h : WF t) (p : String) :
    getVal? t.states (p ++ "." ++ natToStr ((t.parent_children p).length + 1)) = none := by
  cases hv : getVal? t.states (p ++ "." ++ natToStr ((t.parent_children p).length + 1)) with
  | none => rfl
  | some s =>
    exfalso
    have hmem := getVal?_mem hv
    rcases h.key_shape hmem with ⟨_, hk⟩ | ⟨q, j, _, hjlt, hk⟩
    · exact root_ne_childId s.sequence_id p ((t.parent_children p).length + 1) hk.symm
    · obtain ⟨hq, hj⟩ := childId_inj hk
      subst hq
      omega

theorem getVal?_dictInsert_self {α : Type} {l : List (String × α)} {k : String} {v : α}
    (h : getVal? l k = some v) (v' : α) : getVal? (dictInsert l k v') k = some v' := by
  induction l with
  | nil => simp [getVal?] at h
  | cons p r ih =>
    obtain ⟨k', v₀⟩ := p
    by_cases hk : k' = k
    · subst hk; simp [dictInsert, getVal?]
    · simp only [getVal?, if_neg hk] at h
      simp [dictInsert, hk, getVal?, ih h]

theorem getVal?_dictInsert_ne {α : Type} (l : List (String × α)) (k : String) (v' : α)
    {c : String} (hne : c ≠ k) : getVal? (dictInsert l k v') c = getVal? l c := by
  induction l with
  | nil => simp [dictInsert, getVal?, Ne.symm hne]
  | cons p r ih =>
    obtain ⟨k', v₀⟩ := p
    by_cases hk : k' = k
    · subst hk
      simp [dictInsert, getVal?, Ne.symm hne]
    · by_cases hck : k' = c
      · subst hck
        simp [dictInsert, hk, getVal?]
      · simp [dictInsert, hk, getVal?, hck, ih]

theorem keys_append {α : Type} (l₁ l₂ : List (String × α)) :
    keys (l₁ ++ l₂) = keys l₁ ++ keys l₂ := by
  simp [keys]

theorem getElem?_append_singleton {l : List String} {a c : String} {j : Nat}
    (h : (l ++ [a])[j]? = some c) :
    (j < l.length ∧ l[j]? = some c) ∨ (j = l.length ∧ c = a) := by
  by_cases hj : j < l.length
  · rw [List.getElem?_append, if_pos hj] at h
    exact Or.inl ⟨hj, h⟩
  · by_cases hj2 : j = l.length
    · subst hj2
      rw [List.getElem?_concat_length] at h
      exact Or.inr ⟨rfl, (Option.some.inj h).symm⟩
    · exfalso
      have : (l ++ [a])[j]? = none := by
        rw [List.getElem?_eq_none_iff]
        simp only [List.length_append, List.length_singleton]
        omega
      rw [this] at h
      exact Option.noConfusion h

theorem foldl_seqIdx_no_hit (l : List (String × ConversationState)) :
    ∀ (f : Int → Option String) (i : Int), (∀ p ∈ l, ((p.2.sequence_id : Int) ≠ i)) →
      l.foldl (fun f p => seqIdxInsert f p.1 p.2) f i = f i := by
  induction l with
  | nil => intro f i _; rfl
  | cons p r ih =>
    intro f i hni
    rw [List.foldl_cons, ih _ i fun q hq => hni q (List.mem_cons_of_mem p hq)]
    unfold seqIdxInsert
    rw [if_neg fun hi => hni p (List.mem_cons_self p r) (by omega)]

theorem foldl_seqIdx_lookup {k : String} {s : ConversationState} :
    ∀ (l : List (String × ConversationState)) (f : Int → Option String),
      (k, s) ∈ l → (l.map fun p => p.2.sequence_id).Nodup →
      l.foldl (fun f p => seqIdxInsert f p.1 p.2) f (s.sequence_id : Int) = some k := by
  intro l
  induction l with
  | nil => intro f h _; simp at h
  | cons p r ih =>
    intro f hmem hnd
    simp only [List.map_cons, List.nodup_cons] at hnd
    rcases List.mem_cons.mp hmem with rfl | hr
    · rw [List.foldl_cons, foldl_seqIdx_no_hit r _ _ ?_]
      · unfold seqIdxInsert
        rw [if_pos rfl]
      · intro q hq hiq
        exact hnd.1 (by
          have : q.2.sequence_id = s.sequence_id := by exact_mod_cast hiq
          rw [← this]
          exact List.mem_map_of_mem _ hq)
    · rw [List.foldl_cons]
      exact ih _ hr hnd.2

theorem rebuildSeq_lookup {l : List (String × ConversationState)} {k : String}
    {s : ConversationState} (hmem : (k, s) ∈ l)
    (hnd : (l.map fun p => p.2.sequence_id).Nodup) :
    rebuildSeq l (s.sequence_id : Int) = some k :=
  foldl_seqIdx_lookup l _ hmem hnd

/-- `WF` depends only on the store, the derived indices and the counter;
transport it along component equalities. -/
theorem WF.congr {t t' : ConversationTree} (h : WF t)
    (h1 : t'.states = t.states) (h2 : t'.sequence_index = t.sequence_index)
    (h3 : t'.hierarchy_index = t.hierarchy_index)
    (h4 : t'.parent_children = t.parent_children)
    (h5 : t'.sequence_counter = t.sequence_counter) : WF t' := by
  constructor
  · rw [h1]; exact h.key_eq
  · rw [h1]; exact h.keys_nodup
  · rw [h1]; exact h.seq_nodup
  · rw [h1]; exact h.seq_pos
  · rw [h1, h5]; exact h.seq_le
  · rw [h1]; exact h.valid_key
  · rw [h1]; exact h.root_form
  · rw [h1, h4]; exact h.child_mem
  · rw [h4]; exact h.children_ids
  · rw [h1, h4]; exact h.children_stored
  · rw [h1]; exact h.parent_stored
  · rw [h2, h1]; exact h.seq_eq
  · rw [h3, h1]; exact h.hier_eq
  · rw [h4, h1]; exact h.pc_eq

/-- Raising the counter preserves the invariant. -/
theorem WF.counter_mono {t : ConversationTree} (h : WF t) {n : Nat}
    (hn : t.sequence_counter ≤ n) : WF { t with sequence_counter := n } := by
  refine ⟨h.key_eq, h.keys_nodup, h.seq_nodup, h.seq_pos, ?_, h.valid_key, h.root_form,
    h.child_mem, h.children_ids, h.children_stored, h.parent_stored, h.seq_eq, h.hier_eq,
    h.pc_eq⟩
  intro p hp
  exact le_trans (h.seq_le p hp) hn

theorem WF_empty : WF emptyTree := by
  refine ⟨?_, ?_, ?_, ?_, ?_, ?_, ?_, ?_, ?_, ?_, ?_, ?_, ?_, ?_⟩ <;>
    simp [emptyTree, keys, rebuildSeq, rebuildHier, rebuildPC]

theorem pcInsert_none {f : String → List String} {key : String} {s : ConversationState}
    (h : s.parent_id = none) : pcInsert f key s = f := by
  unfold pcInsert
  rw [h]

theorem pcInsert_some {f : String → List String} {key : String} {s : ConversationState}
    {q : String} (h : s.parent_id = some q) (hq : q ≠ "") :
    pcInsert f key s = fun x => if x = q then f q ++ [key] else f x := by
  unfold pcInsert
  rw [h]
  show (if q = "" then f else fun x => if x = q then f q ++ [key] else f x) = _
  rw [if_neg hq]

/-- Inserting a fresh, well-shaped state — the success path of
`add_state` — preserves the invariant. -/
theorem WF_insert {t : ConversationTree} (h : WF t) {key : String} {st : ConversationState}
    (hkey : st.hierarchical_id = key)
    (hseq : st.sequence_id = t.sequence_counter + 1)
    (hfresh : getVal? t.states key = none)
    (hvalid : validate_state_identifier_str key = true)
    (hshape : (st.parent_id = none ∧ key = natToStr st.sequence_id) ∨
      ∃ p sp, st.parent_id = some p ∧ getVal? t.states p = some sp ∧
        key = p ++ "." ++ natToStr ((t.parent_children p).length + 1)) :
    WF { insertIndexed { t with sequence_counter := t.sequence_counter + 1 } key st with
         current_state := some key } := by
  set T := { insertIndexed { t with sequence_counter := t.sequence_counter + 1 } key st with
             current_state := some key } with hT
  have hkeys : key ∉ keys t.states := getVal?_eq_none_iff.mp hfresh
  have hTs : T.states = t.states ++ [(key, st)] := dictInsert_fresh st hfresh
  have hTseq : T.sequence_index = seqIdxInsert t.sequence_index key st := rfl
  have hThier : T.hierarchy_index = hierIdxInsert t.hierarchy_index key st := rfl
  have hTpc : T.parent_children = pcInsert t.parent_children key st := rfl
  have hTc : T.sequence_counter = t.sequence_counter + 1 := rfl
  have hmem' : ∀ a : String × ConversationState, a ∈ T.states → a ∈ t.states ∨ a = (key, st) := by
    intro a ha
    rw [hTs] at ha
    rcases List.mem_append.mp ha with h1 | h2
    · exact Or.inl h1
    · exact Or.inr (List.mem_singleton.mp h2)
  have hlook_new : getVal? T.states key = some st := by
    rw [hTs, getVal?_append_right _ hfresh]
    simp [getVal?]
  have hlook_old : ∀ {c : String} {v : ConversationState},
      getVal? t.states c = some v → getVal? T.states c = some v := by
    intro c v hv
    rw [hTs]
    exact getVal?_append_left _ hv
  have hne_key : ∀ {c : String} {v : ConversationState},
      getVal? t.states c = some v → c ≠ key := by
    rintro c v hv rfl
    rw [hfresh] at hv
    exact Option.noConfusion hv
  have hmemT_old : ∀ a : String × ConversationState, a ∈ t.states → a ∈ T.states := by
    intro a ha
    rw [hTs]
    exact List.mem_append_left _ ha
  -- invariant fields shared by both shapes
  have fld_key_eq : ∀ p ∈ T.states, p.2.hierarchical_id = p.1 := by
    intro a ha
    rcases hmem' a ha with h1 | rfl
    · exact h.key_eq a h1
    · exact hkey
  have fld_keys_nodup : (keys T.states).Nodup := by
    rw [hTs, keys_append]
    have hsing : keys [(key, st)] = [key] := rfl
    rw [hsing]
    refine List.Nodup.append h.keys_nodup (List.nodup_singleton key) ?_
    intro a ha hb
    rw [List.mem_singleton] at hb
    subst hb
    exact hkeys ha
  have fld_seq_nodup : (T.states.map fun p => p.2.sequence_id).Nodup := by
    rw [hTs, List.map_append]
    have hsing : ([(key, st)].map fun p => p.2.sequence_id) = [st.sequence_id] := rfl
    rw [hsing]
    refine List.Nodup.append h.seq_nodup (List.nodup_singleton _) ?_
    intro a ha hb
    rw [List.mem_singleton] at hb
    subst hb
    obtain ⟨b, hbmem, hbseq⟩ := List.mem_map.mp ha
    have := h.seq_le b hbmem
    omega
  have fld_seq_pos : ∀ p ∈ T.states, 1 ≤ p.2.sequence_id := by
    intro a ha
    rcases hmem' a ha with h1 | rfl
    · exact h.seq_pos a h1
    · show 1 ≤ st.sequence_id
      omega
  have fld_seq_le : ∀ p ∈ T.states, p.2.sequence_id ≤ T.sequence_counter := by
    intro a ha
    rw [hTc]
    rcases hmem' a ha with h1 | rfl
    · exact le_trans (h.seq_le a h1) (by omega)
    · show st.sequence_id ≤ t.sequence_counter + 1
      omega
  have fld_valid : ∀ p ∈ T.states, validate_state_identifier_str p.1 = true := by
    intro a ha
    rcases hmem' a ha with h1 | rfl
    · exact h.valid_key a h1
    · exact hvalid
  have fld_seq_eq : T.sequence_index = rebuildSeq T.states := by
    rw [hTseq, hTs, rebuildSeq_append, h.seq_eq]
  have fld_hier_eq : T.hierarchy_index = rebuildHier T.states := by
    rw [hThier, hTs, rebuildHier_append, h.hier_eq]
  have fld_pc_eq : T.parent_children = rebuildPC T.states := by
    rw [hTpc, hTs, rebuildPC_append, h.pc_eq]
  rcases hshape with ⟨hpar, hkform⟩ | ⟨p, sp, hpar, hsp, hkform⟩
  · -- root insertion: the child index is untouched
    have hpc : T.parent_children = t.parent_children := by
      rw [hTpc, pcInsert_none hpar]
    refine ⟨fld_key_eq, fld_keys_nodup, fld_seq_nodup, fld_seq_pos, fld_seq_le, fld_valid,
      ?_, ?_, ?_, ?_, ?_, fld_seq_eq, fld_hier_eq, fld_pc_eq⟩
    · intro a ha hroot
      rcases hmem' a ha with h1 | rfl
      · exact h.root_form a h1 hroot
      · exact hkform
    · intro a ha q hq
      rw [hpc]
      rcases hmem' a ha with h1 | rfl
      · exact h.child_mem a h1 q hq
      · rw [hpar] at hq
        exact Option.noConfusion hq
    · intro q j c hc
      rw [hpc] at hc
      exact h.children_ids q j c hc
    · intro q c hc
      rw [hpc] at hc
      obtain ⟨s₀, hs₀, hps₀⟩ := h.children_stored q c hc
      exact ⟨s₀, hlook_old hs₀, hps₀⟩
    · intro a ha q hq
      rcases hmem' a ha with h1 | rfl
      · obtain ⟨s', hs', hlt⟩ := h.parent_stored a h1 q hq
        exact ⟨s', hlook_old hs', hlt⟩
      · rw [hpar] at hq
        exact Option.noConfusion hq
  · -- child insertion under a stored parent `p`
    have hpne : p ≠ "" := h.key_ne_empty hsp
    have hpc : T.parent_children =
        fun x => if x = p then t.parent_children p ++ [key] else t.parent_children x := by
      rw [hTpc, pcInsert_some hpar hpne]
    have hpcq : ∀ x, T.parent_children x =
        if x = p then t.parent_children p ++ [key] else t.parent_children x := by
      intro x
      rw [hpc]
    refine ⟨fld_key_eq, fld_keys_nodup, fld_seq_nodup, fld_seq_pos, fld_seq_le, fld_valid,
      ?_, ?_, ?_, ?_, ?_, fld_seq_eq, fld_hier_eq, fld_pc_eq⟩
    · intro a ha hroot
      rcases hmem' a ha with h1 | rfl
      · exact h.root_form a h1 hroot
      · rw [hpar] at hroot
        exact Option.noConfusion hroot
    · intro a ha q hq
      rw [hpcq q]
      rcases hmem' a ha with h1 | rfl
      · by_cases hqp : q = p
        · subst hqp
          rw [if_pos rfl]
          exact List.mem_append_left _ (h.child_mem a h1 q hq)
        · rw [if_neg hqp]
          exact h.child_mem a h1 q hq
      · have hqp : q = p := by
          rw [hpar] at hq
          exact (Option.some.inj hq).symm
        subst hqp
        rw [if_pos rfl]
        exact List.mem_append_right _ (List.mem_singleton.mpr rfl)
    · intro q j c hc
      rw [hpcq q] at hc
      by_cases hqp : q = p
      · subst hqp
        rw [if_pos rfl] at hc
        rcases getElem?_append_singleton hc with ⟨hj, hold⟩ | ⟨hj, rfl⟩
        · exact h.children_ids q j c hold
        · rw [hj]
          exact hkform
      · rw [if_neg hqp] at hc
        exact h.children_ids q j c hc
    · intro q c hc
      rw [hpcq q] at hc
      by_cases hqp : q = p
      · subst hqp
        rw [if_pos rfl] at hc
        rcases List.mem_append.mp hc with hcol | hcnew
        · obtain ⟨s₀, hs₀, hps₀⟩ := h.children_stored q c hcol
          exact ⟨s₀, hlook_old hs₀, hps₀⟩
        · rw [List.mem_singleton] at hcnew
          subst hcnew
          exact ⟨st, hlook_new, hpar⟩
      · rw [if_neg hqp] at hc
        obtain ⟨s₀, hs₀, hps₀⟩ := h.children_stored q c hc
        exact ⟨s₀, hlook_old hs₀, hps₀⟩
    · intro a ha q hq
      rcases hmem' a ha with h1 | rfl
      · obtain ⟨s', hs', hlt⟩ := h.parent_stored a h1 q hq
        exact ⟨s', hlook_old hs', hlt⟩
      · have hqp : q = p := by
          rw [hpar] at hq
          exact (Option.some.inj hq).symm
        subst hqp
        refine ⟨sp, hlook_old hsp, ?_⟩
        have h1 : sp.sequence_id ≤ t.sequence_counter := h.seq_le (q, sp) (getVal?_mem hsp)
        show sp.sequence_id < st.sequence_id
        omega

/-- The record built by a successful `add_state` call. -/
def mkAddedState (hid : String) (seq : Nat) (parent : Option String)
    (m r mo : String) (ts : Nat) : ConversationState :=
  { hierarchical_id := hid, sequence_id := seq, parent_id := parent, message := m
    response := r, model := mo, timestamp := ts, tags := ∅, metadata := [] }

theorem add_state_none_eq (t : ConversationTree) (m r mo : String) (ts : Nat) :
    add_state t none m r mo ts =
      (.ok (mkAddedState (natToStr (t.sequence_counter + 1)) (t.sequence_counter + 1)
          none m r mo ts),
       { insertIndexed { t with sequence_counter := t.sequence_counter + 1 }
           (natToStr (t.sequence_counter + 1))
           (mkAddedState (natToStr (t.sequence_counter + 1)) (t.sequence_counter + 1)
             none m r mo ts) with
         current_state := some (natToStr (t.sequence_counter + 1)) }) := rfl

theorem add_state_missing_eq (t : ConversationTree) (p : String) (m r mo : String) (ts : Nat)
    (hp : getVal? t.states p = none) :
    add_state t (some p) m r mo ts =
      (.error (.stateNotFound p), { t with sequence_counter := t.sequence_counter + 1 }) := by
  simp only [add_state, hp, mkAddedState]

theorem add_state_child_eq (t : ConversationTree) (p : String) (m r mo : String) (ts : Nat)
    {sp : ConversationState} (hp : getVal? t.states p = some sp) :
    add_state t (some p) m r mo ts =
      (.ok (mkAddedState (p ++ "." ++ natToStr ((t.parent_children p).length + 1))
          (t.sequence_counter + 1) (some p) m r mo ts),
       { insertIndexed { t with sequence_counter := t.sequence_counter + 1 }
           (p ++ "." ++ natToStr ((t.parent_children p).length + 1))
           (mkAddedState (p ++ "." ++ natToStr ((t.parent_children p).length + 1))
             (t.sequence_counter + 1) (some p) m r mo ts) with
         current_state := some (p ++ "." ++ natToStr ((t.parent_children p).length + 1)) }) := by
  simp only [add_state, hp, mkAddedState]

theorem WF_add (t : ConversationTree) (h : WF t) (pid : Option String)
    (m r mo : String) (ts : Nat) : WF (add_state t pid m r mo ts).2 := by
  cases pid with
  | none =>
    rw [add_state_none_eq]
    exact WF_insert h rfl rfl h.fresh_root (validate_natToStr _) (Or.inl ⟨rfl, rfl⟩)
  | some p =>
    cases hp : getVal? t.states p with
    | none =>
      rw [add_state_missing_eq t p m r mo ts hp]
      exact h.counter_mono (by omega)
    | some sp =>
      rw [add_state_child_eq t p m r mo ts hp]
      exact WF_insert h rfl rfl (h.fresh_child p)
        (validate_childId _ (h.key_valid hp)) (Or.inr ⟨p, sp, rfl, hp, rfl⟩)

theorem navigate_to_eq_noparse {t : ConversationTree} {i : Ident}
    (h : navParse i = none) : navigate_to t i = (false, t) := by
  unfold navigate_to
  rw [h]

theorem navigate_to_eq_miss {t : ConversationTree} {i pid : Ident}
    (h : navParse i = some pid) (hf : find_state t pid = none) :
    navigate_to t i = (false, t) := by
  unfold navigate_to
  rw [h]
  show (match find_state t pid with
    | some st => (true, { t with current_state := some st.hierarchical_id })
    | none => (false, t)) = (false, t)
  rw [hf]

theorem navigate_to_eq_hit {t : ConversationTree} {i pid : Ident} {st : ConversationState}
    (h : navParse i = some pid) (hf : find_state t pid = some st) :
    navigate_to t i = (true, { t with current_state := some st.hierarchical_id }) := by
  unfold navigate_to
  rw [h]
  show (match find_state t pid with
    | some st => (true, { t with current_state := some st.hierarchical_id })
    | none => (false, t)) = _
  rw [hf]

/-- `navigate_to` either leaves the tree untouched or only moves the
current pointer. -/
theorem navigate_to_snd (t : ConversationTree) (i : Ident) :
    (navigate_to t i).2 = t ∨ ∃ st : ConversationState,
      find_state t ((navParse i).getD (.seq 0)) = some st ∧
      (navigate_to t i).2 = { t with current_state := some st.hierarchical_id } := by
  cases hparse : navParse i with
  | none => rw [navigate_to_eq_noparse hparse]; exact Or.inl rfl
  | some pid =>
    cases hf : find_state t pid with
    | none => rw [navigate_to_eq_miss hparse hf]; exact Or.inl rfl
    | some st =>
      rw [navigate_to_eq_hit hparse hf]
      exact Or.inr ⟨st, by simpa using hf, rfl⟩

theorem WF_nav (t : ConversationTree) (h : WF t) (i : Ident) :
    WF (navigate_to t i).2 := by
  rcases navigate_to_snd t i with heq | ⟨st, _, heq⟩
  · rw [heq]; exact h
  · rw [heq]
    exact h.congr rfl rfl rfl rfl rfl

theorem seqIdxInsert_congr {f : Int → Option String} {k : String}
    {v w : ConversationState} (h : v.sequence_id = w.sequence_id) :
    seqIdxInsert f k v = seqIdxInsert f k w := by
  unfold seqIdxInsert
  rw [h]

theorem hierIdxInsert_congr {f : String → Option Nat} {k : String}
    {v w : ConversationState} (h : v.sequence_id = w.sequence_id) :
    hierIdxInsert f k v = hierIdxInsert f k w := by
  unfold hierIdxInsert
  rw [h]

theorem pcInsert_congr {f : String → List String} {k : String}
    {v w : ConversationState} (h : v.parent_id = w.parent_id) :
    pcInsert f k v = pcInsert f k w := by
  unfold pcInsert
  rw [h]

theorem rebuildSeq_replace {l₁ l₂ : List (String × ConversationState)} {id : String}
    {s v' : ConversationState} (hs : v'.sequence_id = s.sequence_id) :
    rebuildSeq (l₁ ++ (id, v') :: l₂) = rebuildSeq (l₁ ++ (id, s) :: l₂) := by
  unfold rebuildSeq
  rw [List.foldl_append, List.foldl_append, List.foldl_cons, List.foldl_cons]
  rw [show seqIdxInsert (List.foldl (fun f p => seqIdxInsert f p.1 p.2) (fun _ => none) l₁)
      id v' = seqIdxInsert _ id s from seqIdxInsert_congr hs]

theorem rebuildHier_replace {l₁ l₂ : List (String × ConversationState)} {id : String}
    {s v' : ConversationState} (hs : v'.sequence_id = s.sequence_id) :
    rebuildHier (l₁ ++ (id, v') :: l₂) = rebuildHier (l₁ ++ (id, s) :: l₂) := by
  unfold rebuildHier
  rw [List.foldl_append, List.foldl_append, List.foldl_cons, List.foldl_cons]
  rw [show hierIdxInsert (List.foldl (fun f p => hierIdxInsert f p.1 p.2) (fun _ => none) l₁)
      id v' = hierIdxInsert _ id s from hierIdxInsert_congr hs]

theorem rebuildPC_replace {l₁ l₂ : List (String × ConversationState)} {id : String}
    {s v' : ConversationState} (hp : v'.parent_id = s.parent_id) :
    rebuildPC (l₁ ++ (id, v') :: l₂) = rebuildPC (l₁ ++ (id, s) :: l₂) := by
  unfold rebuildPC
  rw [List.foldl_append, List.foldl_append, List.foldl_cons, List.foldl_cons]
  rw [show pcInsert (List.foldl (fun f p => pcInsert f p.1 p.2) (fun _ => []) l₁)
      id v' = pcInsert _ id s from pcInsert_congr hp]

/-- Replacing a stored record by one with the same hierarchical id,
sequence id and parent — as the with-tags update pattern does — preserves
the invariant. -/
theorem WF_replace {t : ConversationTree} (h : WF t) {id : String} {s : ConversationState}
    (hid : getVal? t.states id = some s) {v' : ConversationState}
    (hh : v'.hierarchical_id = s.hierarchical_id)
    (hs : v'.sequence_id = s.sequence_id)
    (hp : v'.parent_id = s.parent_id) :
    WF { t with states := dictInsert t.states id v' } := by
  obtain ⟨l₁, l₂, hl, hk1, hins⟩ := dictInsert_replace h.keys_nodup hid v'
  have hmem_s : (id, s) ∈ t.states := getVal?_mem hid
  have hkeyid : s.hierarchical_id = id := h.getVal_key hid
  have hmem' : ∀ a : String × ConversationState,
      a ∈ dictInsert t.states id v' → a ∈ t.states ∨ a = (id, v') := by
    intro a ha
    rw [hins] at ha
    rcases List.mem_append.mp ha with h1 | h2
    · exact Or.inl (by rw [hl]; exact List.mem_append_left _ h1)
    · rcases List.mem_cons.mp h2 with rfl | h3
      · exact Or.inr rfl
      · exact Or.inl (by
          rw [hl]
          exact List.mem_append_right _ (List.mem_cons_of_mem _ h3))
  have hlook_self : getVal? (dictInsert t.states id v') id = some v' :=
    getVal?_dictInsert_self hid v'
  have hlook_ne : ∀ {c : String}, c ≠ id →
      getVal? (dictInsert t.states id v') c = getVal? t.states c := by
    intro c hc
    exact getVal?_dictInsert_ne t.states id v' hc
  have hkeys_eq : keys (dictInsert t.states id v') = keys t.states :=
    keys_dictInsert_replace hid v'
  have hmaps_eq : ((dictInsert t.states id v').map fun p => p.2.sequence_id)
      = t.states.map fun p => p.2.sequence_id := by
    rw [hins, hl]
    simp [hs]
  constructor
  · intro a ha
    rcases hmem' a ha with h1 | rfl
    · exact h.key_eq a h1
    · rw [hh]; exact hkeyid
  · rw [hkeys_eq]; exact h.keys_nodup
  · rw [hmaps_eq]; exact h.seq_nodup
  · intro a ha
    rcases hmem' a ha with h1 | rfl
    · exact h.seq_pos a h1
    · show 1 ≤ v'.sequence_id
      rw [hs]
      exact h.seq_pos (id, s) hmem_s
  · intro a ha
    rcases hmem' a ha with h1 | rfl
    · exact h.seq_le a h1
    · show v'.sequence_id ≤ t.sequence_counter
      rw [hs]
      exact h.seq_le (id, s) hmem_s
  · intro a ha
    rcases hmem' a ha with h1 | rfl
    · exact h.valid_key a h1
    · exact h.valid_key (id, s) hmem_s
  · intro a ha hroot
    rcases hmem' a ha with h1 | rfl
    · exact h.root_form a h1 hroot
    · show id = natToStr v'.sequence_id
      rw [hs]
      exact h.root_form (id, s) hmem_s (by rw [← hp]; exact hroot)
  · intro a ha q hq
    rcases hmem' a ha with h1 | rfl
    · exact h.child_mem a h1 q hq
    · exact h.child_mem (id, s) hmem_s q (by rw [← hp]; exact hq)
  · exact h.children_ids
  · intro q c hc
    obtain ⟨s₀, hs₀, hp₀⟩ := h.children_stored q c hc
    by_cases hcid : c = id
    · subst hcid
      have hss : s₀ = s := by
        rw [hid] at hs₀
        exact (Option.some.inj hs₀).symm
      subst hss
      exact ⟨v', hlook_self, by rw [hp]; exact hp₀⟩
    · exact ⟨s₀, by rw [hlook_ne hcid]; exact hs₀, hp₀⟩
  · intro a ha q hq
    rcases hmem' a ha with h1 | rfl
    · obtain ⟨s', hs', hlt⟩ := h.parent_stored a h1 q hq
      by_cases hqid : q = id
      · subst hqid
        have hss : s' = s := by
          rw [hid] at hs'
          exact (Option.some.inj hs').symm
        subst hss
        exact ⟨v', hlook_self, by rw [hs]; exact hlt⟩
      · exact ⟨s', by rw [hlook_ne hqid]; exact hs', hlt⟩
    · obtain ⟨s', hs', hlt⟩ := h.parent_stored (id, s) hmem_s q (by rw [← hp]; exact hq)
      have hlt' : s'.sequence_id < v'.sequence_id := by
        rw [hs]; exact hlt
      by_cases hqid : q = id
      · subst hqid
        have hss : s' = s := by
          rw [hid] at hs'
          exact (Option.some.inj hs').symm
        subst hss
        exact ⟨v', hlook_self, by
          show v'.sequence_id < v'.sequence_id
          rw [hs]
          exact hlt⟩
      · exact ⟨s', by rw [hlook_ne hqid]; exact hs', hlt'⟩
  · show t.sequence_index = rebuildSeq (dictInsert t.states id v')
    rw [hins, rebuildSeq_replace hs, ← hl]
    exact h.seq_eq
  · show t.hierarchy_index = rebuildHier (dictInsert t.states id v')
    rw [hins, rebuildHier_replace hs, ← hl]
    exact h.hier_eq
  · show t.parent_children = rebuildPC (dictInsert t.states id v')
    rw [hins, rebuildPC_replace hp, ← hl]
    exact h.pc_eq

theorem update_state_hit_eq {t : ConversationTree} {id : String} {s : ConversationState}
    (hid : getVal? t.states id = some s) {v' : ConversationState}
    (hh : v'.hierarchical_id = id) :
    update_state t id v' = (true, { t with states := dictInsert t.states id v' }) := by
  unfold update_state
  rw [hid]
  show (if v'.hierarchical_id ≠ id then (false, t)
    else (true, { t with states := dictInsert t.states id v' })) = _
  rw [if_neg fun hne => hne hh]

theorem WF_applyOp (t : ConversationTree) (h : WF t) (op : Op) : WF (applyOp t op) := by
  cases op with
  | add p m r mo ts => exact WF_add t h p m r mo ts
  | nav i => exact WF_nav t h i
  | tagUpd id tags =>
    show WF (match getVal? t.states id with
      | none => t
      | some s => (update_state t id (s.with_tags tags)).2)
    cases hid : getVal? t.states id with
    | none => exact h
    | some s =>
      show WF (update_state t id (s.with_tags tags)).2
      rw [@update_state_hit_eq t id s hid (s.with_tags tags)
        (show (s.with_tags tags).hierarchical_id = id from @WF.getVal_key t h id s hid)]
      exact WF_replace h hid rfl rfl rfl

theorem WF_runOps (ops : List Op) : WF (runOps ops) := by
  unfold runOps
  suffices hgen : ∀ t, WF t → WF (ops.foldl applyOp t) from hgen emptyTree WF_empty
  induction ops with
  | nil => intro t ht; exact ht
  | cons op rest ih =>
    intro t ht
    exact ih _ (WF_applyOp t ht op)

theorem WF_reach {t : ConversationTree} (h : Reach t) : WF t := by
  obtain ⟨ops, rfl⟩ := h
  exact WF_runOps ops

/-! ### Serialisation round trip -/

theorem sort_toFinset (tg : Finset String) : (tg.sort (· ≤ ·)).toFinset = tg := by
  ext a
  simp [List.mem_toFinset, Finset.mem_sort]

/-- A serialised record decodes back to itself. -/
theorem state_roundtrip (s : ConversationState) :
    ConversationState.from_dict s.to_dict = s := by
  obtain ⟨hid, seq, par, m, r, mo, ts, tg, md⟩ := s
  simp [ConversationState.to_dict, ConversationState.from_dict, sort_toFinset]

theorem foldl_congr_fn {α β : Type} (f g : β → α → β) (l : List α)
    (h : ∀ b a, a ∈ l → f b a = g b a) : ∀ b, l.foldl f b = l.foldl g b := by
  induction l with
  | nil => intro b; rfl
  | cons a r ih =>
    intro b
    rw [List.foldl_cons, List.foldl_cons, h b a (List.mem_cons_self a r)]
    exact ih (fun b a ha => h b a (List.mem_cons_of_mem _ ha)) _

/-- Components of a fold of `insertIndexed`: each index folds its own
insert, and the current pointer and counter stay put. -/
theorem foldl_insertIndexed_proj (l : List (String × ConversationState)) :
    ∀ t0 : ConversationTree,
      (l.foldl (fun tr p => insertIndexed tr p.1 p.2) t0).states
          = l.foldl (fun st p => dictInsert st p.1 p.2) t0.states ∧
      (l.foldl (fun tr p => insertIndexed tr p.1 p.2) t0).sequence_index
          = l.foldl (fun f p => seqIdxInsert f p.1 p.2) t0.sequence_index ∧
      (l.foldl (fun tr p => insertIndexed tr p.1 p.2) t0).hierarchy_index
          = l.foldl (fun f p => hierIdxInsert f p.1 p.2) t0.hierarchy_index ∧
      (l.foldl (fun tr p => insertIndexed tr p.1 p.2) t0).parent_children
          = l.foldl (fun f p => pcInsert f p.1 p.2) t0.parent_children ∧
      (l.foldl (fun tr p => insertIndexed tr p.1 p.2) t0).current_state = t0.current_state ∧
      (l.foldl (fun tr p => insertIndexed tr p.1 p.2) t0).sequence_counter
          = t0.sequence_counter := by
  induction l with
  | nil => intro t0; exact ⟨rfl, rfl, rfl, rfl, rfl, rfl⟩
  | cons p r ih =>
    intro t0
    simp only [List.foldl_cons]
    exact ih (insertIndexed t0 p.1 p.2)

theorem foldl_dictInsert_fresh (l : List (String × ConversationState)) :
    ∀ acc : List (String × ConversationState), (keys l).Nodup →
      (∀ k ∈ keys l, k ∉ keys acc) →
      l.foldl (fun st p => dictInsert st p.1 p.2) acc = acc ++ l := by
  induction l with
  | nil => intro acc _ _; simp
  | cons p r ih =>
    intro acc hnd hdisj
    simp only [keys, List.map_cons, List.nodup_cons] at hnd
    have hfresh : getVal? acc p.1 = none :=
      getVal?_eq_none_iff.mpr (hdisj p.1 (by simp [keys]))
    rw [List.foldl_cons, dictInsert_fresh p.2 hfresh,
      ih (acc ++ [(p.1, p.2)]) hnd.2 ?_, List.append_assoc]
    · rfl
    · intro k hk
      rw [keys_append]
      intro hmem
      rcases List.mem_append.mp hmem with h1 | h2
      · refine hdisj k ?_ h1
        simp only [keys, List.map_cons]
        exact List.mem_cons_of_mem _ (by simpa [keys] using hk)
      · have : k = p.1 := by simpa [keys] using h2
        subst this
        exact hnd.1 (by simpa [keys] using hk)

theorem tree_eq_of_fields {a b : ConversationTree}
    (h1 : a.states = b.states) (h2 : a.sequence_index = b.sequence_index)
    (h3 : a.hierarchy_index = b.hierarchy_index)
    (h4 : a.parent_children = b.parent_children)
    (h5 : a.current_state = b.current_state)
    (h6 : a.sequence_counter = b.sequence_counter) : a = b := by
  obtain ⟨a1, a2, a3, a4, a5, a6⟩ := a
  obtain ⟨b1, b2, b3, b4, b5, b6⟩ := b
  simp only at h1 h2 h3 h4 h5 h6
  subst h1 h2 h3 h4 h5 h6
  rfl

/-- On every invariant-satisfying tree, decoding the encoded snapshot
reproduces the tree exactly: the serialised store carries everything,
and the rebuilt derived indices coincide with the originals. -/
theorem from_dict_to_dict {t : ConversationTree} (h : WF t) (now : Nat) :
    from_dict (to_dict t now) = t := by
  have hfold : from_dict (to_dict t now)
      = (t.states.map fun p => (p.1, p.2.to_dict)).foldl
          (fun tree p => insertIndexed tree p.1 (ConversationState.from_dict p.2))
          { emptyTree with
            sequence_counter := t.sequence_counter
            current_state := t.current_state } := rfl
  rw [hfold, List.foldl_map]
  rw [foldl_congr_fn _ (fun tree p => insertIndexed tree p.1 p.2) t.states
    (fun b a _ => by rw [state_roundtrip]) _]
  obtain ⟨hst, hsi, hhi, hpc, hcur, hcnt⟩ := foldl_insertIndexed_proj t.states
    { emptyTree with
      sequence_counter := t.sequence_counter
      current_state := t.current_state }
  have hstates : (t.states.foldl (fun tr p => insertIndexed tr p.1 p.2)
      { emptyTree with
        sequence_counter := t.sequence_counter
        current_state := t.current_state }).states = t.states := by
    rw [hst]
    have := foldl_dictInsert_fresh t.states [] h.keys_nodup (by simp [keys])
    simpa using this
  have hseqi : (t.states.foldl (fun tr p => insertIndexed tr p.1 p.2)
      { emptyTree with
        sequence_counter := t.sequence_counter
        current_state := t.current_state }).sequence_index = t.sequence_index := by
    rw [hsi, h.seq_eq]
    rfl
  have hhieri : (t.states.foldl (fun tr p => insertIndexed tr p.1 p.2)
      { emptyTree with
        sequence_counter := t.sequence_counter
        current_state := t.current_state }).hierarchy_index = t.hierarchy_index := by
    rw [hhi, h.hier_eq]
    rfl
  have hpci : (t.states.foldl (fun tr p => insertIndexed tr p.1 p.2)
      { emptyTree with
        sequence_counter := t.sequence_counter
        current_state := t.current_state }).parent_children = t.parent_children := by
    rw [hpc, h.pc_eq]
    rfl
  exact tree_eq_of_fields hstates hseqi hhieri hpci hcur hcnt

/-! ### Navigation on invariant-satisfying trees -/

theorem find_state_seq {t : ConversationTree} (h : WF t) {k : String}
    {s : ConversationState} (hmem : (k, s) ∈ t.states) :
    find_state t (.seq (s.sequence_id : Int)) = some s := by
  have hk : getVal? t.states k = some s := getVal?_of_mem h.keys_nodup hmem
  have hkne : k ≠ "" := h.key_ne_empty hk
  have hidx : t.sequence_index (s.sequence_id : Int) = some k := by
    rw [h.seq_eq]
    exact rebuildSeq_lookup hmem h.seq_nodup
  show (match t.sequence_index (s.sequence_id : Int) with
    | none => none
    | some hid => if hid = "" then none else getVal? t.states hid) = some s
  rw [hidx]
  show (if k = "" then none else getVal? t.states k) = some s
  rw [if_neg hkne]
  exact hk

/-- Navigating to the hierarchical id of any stored state succeeds and
sets the current pointer to that id — root numerals take the
integer-parse path through the sequence index, dotted ids the direct
path. -/
theorem navigate_to_stored {t : ConversationTree} (h : WF t) {k : String}
    {s : ConversationState} (hk : getVal? t.states k = some s) :
    navigate_to t (.hier k) = (true, { t with current_state := some k }) := by
  have hmem := getVal?_mem hk
  have hkeyeq : s.hierarchical_id = k := h.key_eq _ hmem
  rcases h.key_shape hmem with ⟨hpar, hkform⟩ | ⟨q, j, hpar, hjlt, hkform⟩
  · have hseqpos : 1 ≤ s.sequence_id := h.seq_pos _ hmem
    have hparse : navParse (.hier k) = some (.seq (s.sequence_id : Int)) := by
      show parse_state_identifier k = _
      rw [hkform]
      exact parse_natToStr hseqpos
    have hfind : find_state t (.seq (s.sequence_id : Int)) = some s := find_state_seq h hmem
    rw [navigate_to_eq_hit hparse hfind, hkeyeq]
  · have hdot : '.' ∈ k.data := by
      rw [hkform]
      exact childId_has_dot q (j + 1)
    have hval : validate_state_identifier_str k = true := h.valid_key _ hmem
    have hparse : navParse (.hier k) = some (.hier k) := parse_valid_dotted hval hdot
    have hfind : find_state t (.hier k) = some s := hk
    rw [navigate_to_eq_hit hparse hfind, hkeyeq]

theorem filterMap_getElem?_of_total {α β : Type} (f : α → Option β) (l : List α)
    (h : ∀ a ∈ l, (f a).isSome) : ∀ j : Nat, (l.filterMap f)[j]? = (l[j]?).bind f := by
  induction l with
  | nil => intro j; simp
  | cons a r ih =>
    intro j
    obtain ⟨b, hb⟩ := Option.isSome_iff_exists.mp (h a (List.mem_cons_self a r))
    rw [List.filterMap_cons_some hb]
    cases j with
    | zero => simp [hb]
    | succ j =>
      simp only [List.getElem?_cons_succ]
      exact ih (fun a ha => h a (List.mem_cons_of_mem _ ha)) j

theorem filterMap_length_of_total {α β : Type} (f : α → Option β) (l : List α)
    (h : ∀ a ∈ l, (f a).isSome) : (l.filterMap f).length = l.length := by
  induction l with
  | nil => rfl
  | cons a r ih =>
    obtain ⟨b, hb⟩ := Option.isSome_iff_exists.mp (h a (List.mem_cons_self a r))
    rw [List.filterMap_cons_some hb, List.length_cons, List.length_cons,
      ih fun a ha => h a (List.mem_cons_of_mem _ ha)]

theorem get_children_getElem? {t : ConversationTree} (h : WF t) (q : String) (j : Nat) :
    (get_children t q)[j]? = ((t.parent_children q)[j]?).bind (getVal? t.states) := by
  unfold get_children
  exact filterMap_getElem?_of_total _ _
    (fun c hc => by
      obtain ⟨s, hs, _⟩ := h.children_stored q c hc
      simp [hs]) j

theorem get_children_length {t : ConversationTree} (h : WF t) (q : String) :
    (get_children t q).length = (t.parent_children q).length := by
  unfold get_children
  exact filterMap_length_of_total _ _ fun c hc => by
    obtain ⟨s, hs, _⟩ := h.children_stored q c hc
    simp [hs]

/-! ### The path-to-root walk -/

theorem length_filter_mono {α : Type} (l : List α) (p q : α → Bool)
    (h : ∀ a ∈ l, q a = true → p a = true) :
    (l.filter q).length ≤ (l.filter p).length := by
  induction l with
  | nil => simp
  | cons a r ih =>
    have ih' := ih fun a ha => h a (List.mem_cons_of_mem _ ha)
    cases hq : q a with
    | true =>
      rw [List.filter_cons_of_pos (h a (List.mem_cons_self a r) hq),
        List.filter_cons_of_pos hq]
      simpa using ih'
    | false =>
      rw [List.filter_cons_of_neg (by simp [hq])]
      cases hp : p a with
      | true =>
        rw [List.filter_cons_of_pos hp]
        exact le_trans ih' (by simp)
      | false =>
        rw [List.filter_cons_of_neg (by simp [hp])]
        exact ih'

theorem length_filter_lt {α : Type} (l : List α) (p q : α → Bool)
    (h : ∀ a ∈ l, q a = true → p a = true) {a₀ : α} (ha : a₀ ∈ l)
    (hp : p a₀ = true) (hq : q a₀ = false) :
    (l.filter q).length < (l.filter p).length := by
  induction l with
  | nil => simp at ha
  | cons a r ih =>
    have hmono := length_filter_mono r p q fun a ha => h a (List.mem_cons_of_mem _ ha)
    rcases List.mem_cons.mp ha with rfl | har
    · rw [List.filter_cons_of_neg (by simp [hq]), List.filter_cons_of_pos hp]
      simp only [List.length_cons]
      omega
    · have ih' := ih (fun a ha => h a (List.mem_cons_of_mem _ ha)) har
      cases hqa : q a with
      | true =>
        rw [List.filter_cons_of_pos (h a (List.mem_cons_self a r) hqa),
          List.filter_cons_of_pos hqa]
        simpa using ih'
      | false =>
        rw [List.filter_cons_of_neg (by simp [hqa])]
        cases hpa : p a with
        | true =>
          rw [List.filter_cons_of_pos hpa]
          exact lt_of_lt_of_le ih' (by simp)
        | false =>
          rw [List.filter_cons_of_neg (by simp [hpa])]
          exact ih'

theorem pathGo_none (states : List (String × ConversationState)) :
    ∀ fuel acc, pathGo states fuel none acc = acc := by
  intro fuel acc
  cases fuel <;> rfl

theorem pathGo_start_missing (states : List (String × ConversationState))
    {k : String} (hk : getVal? states k = none) :
    ∀ fuel acc, pathGo states fuel (some k) acc = acc := by
  intro fuel acc
  cases fuel with
  | zero => rfl
  | succ fuel =>
    by_cases hke : k = ""
    · simp [pathGo, hke]
    · show (if k = "" then acc
        else match getVal? states k with
          | none => acc
          | some s => pathGo states fuel s.parent_id (s :: acc)) = acc
      rw [if_neg hke, hk]

theorem pathGo_step (states : List (String × ConversationState))
    {k : String} {s : ConversationState} (hk : getVal? states k = some s)
    (hke : k ≠ "") (fuel : Nat) (acc : List ConversationState) :
    pathGo states (fuel + 1) (some k) acc = pathGo states fuel s.parent_id (s :: acc) := by
  show (if k = "" then acc
    else match getVal? states k with
      | none => acc
      | some s => pathGo states fuel s.parent_id (s :: acc)) = _
  rw [if_neg hke, hk]

/-- Completeness of the bounded walk: with enough fuel it returns the
full ancestor chain of a stored id, root-first, linked by `parent_id`. -/
theorem pathGo_spec {t : ConversationTree} (h : WF t) :
    ∀ (fuel : Nat) (cid : String) (s : ConversationState) (acc : List ConversationState),
      getVal? t.states cid = some s →
      (t.states.filter fun p => decide (p.2.sequence_id ≤ s.sequence_id)).length ≤ fuel →
      ∃ chain : List ConversationState,
        pathGo t.states fuel (some cid) acc = chain ++ acc ∧
        chain ≠ [] ∧
        chain.getLast? = some s ∧
        (∀ hd ∈ chain.head?, hd.parent_id = none) ∧
        List.Chain' (fun a b => b.parent_id = some a.hierarchical_id) chain ∧
        (∀ x ∈ chain, getVal? t.states x.hierarchical_id = some x) := by
  intro fuel
  induction fuel with
  | zero =>
    intro cid s acc hcid hfuel
    exfalso
    have hmem := getVal?_mem hcid
    have : (cid, s) ∈ t.states.filter fun p => decide (p.2.sequence_id ≤ s.sequence_id) :=
      List.mem_filter.mpr ⟨hmem, by simp⟩
    have hpos : 0 < (t.states.filter fun p => decide (p.2.sequence_id ≤ s.sequence_id)).length :=
      List.length_pos.mpr fun hnil => by simp [hnil] at this
    omega
  | succ fuel ih =>
    intro cid s acc hcid hfuel
    have hke : cid ≠ "" := h.key_ne_empty hcid
    have hkeyeq : s.hierarchical_id = cid := h.getVal_key hcid
    rw [pathGo_step t.states hcid hke fuel acc]
    cases hpar : s.parent_id with
    | none =>
      rw [pathGo_none]
      refine ⟨[s], rfl, by simp, by simp, ?_, List.chain'_singleton s, ?_⟩
      · intro hd hhd
        simp only [List.head?_cons, Option.mem_def, Option.some.injEq] at hhd
        subst hhd
        exact hpar
      · intro x hx
        rw [List.mem_singleton] at hx
        subst hx
        rw [hkeyeq]
        exact hcid
    | some q =>
      obtain ⟨s', hq, hlt⟩ := h.parent_stored (cid, s) (getVal?_mem hcid) q hpar
      have hlt' : s'.sequence_id < s.sequence_id := hlt
      have hqkey : s'.hierarchical_id = q := h.getVal_key hq
      have hcount : (t.states.filter fun p => decide (p.2.sequence_id ≤ s'.sequence_id)).length
          ≤ fuel := by
        have hstrict := length_filter_lt t.states
          (fun p => decide (p.2.sequence_id ≤ s.sequence_id))
          (fun p => decide (p.2.sequence_id ≤ s'.sequence_id))
          (fun a _ hle => by
            simp only [decide_eq_true_eq] at hle ⊢
            omega)
          (getVal?_mem hcid)
          (by
            show decide (s.sequence_id ≤ s.sequence_id) = true
            simp)
          (by
            show decide (s.sequence_id ≤ s'.sequence_id) = false
            simp only [decide_eq_false_iff_not]
            omega)
        omega
      obtain ⟨chain', heq, hne, hlast, hhead, hchain, hmem⟩ := ih q s' (s :: acc) hq hcount
      refine ⟨chain' ++ [s], ?_, by simp, by simp, ?_, ?_, ?_⟩
      · rw [heq, List.append_assoc, List.singleton_append]
      · intro hd hhd
        obtain ⟨c₀, rest, rfl⟩ := List.exists_cons_of_ne_nil hne
        have hhd' : c₀ = hd := by
          simpa [Option.mem_def] using hhd
        rw [← hhd']
        exact hhead c₀ (by simp [Option.mem_def])
      · refine List.Chain'.append hchain (List.chain'_singleton s) ?_
        intro x hx y hy
        simp only [Option.mem_def] at hx hy
        rw [hlast] at hx
        obtain rfl : s' = x := Option.some.inj hx
        simp only [List.head?_cons, Option.some.injEq] at hy
        subst hy
        rw [hpar, hqkey]
      · intro x hx
        rcases List.mem_append.mp hx with h1 | h2
        · exact hmem x h1
        · rw [List.mem_singleton] at h2
          subst h2
          rw [hkeyeq]
          exact hcid

/-- `get_path_to_root` of an id absent from the store is the empty
path. -/
theorem get_path_to_root_absent {t : ConversationTree} {k : String}
    (hk : getVal? t.states k = none) : get_path_to_root t k = [] :=
  pathGo_start_missing t.states hk _ _

/-- `get_path_to_root` of a stored id is its full ancestor chain:
nonempty, ending at the queried state, starting at a root, consecutive
entries linked parent-to-child, and every entry stored. -/
theorem get_path_to_root_present {t : ConversationTree} (h : WF t) {k : String}
    {s : ConversationState} (hk : getVal? t.states k = some s) :
    get_path_to_root t k ≠ [] ∧
    (get_path_to_root t k).getLast? = some s ∧
    (∀ hd ∈ (get_path_to_root t k).head?, hd.parent_id = none) ∧
    List.Chain' (fun a b => b.parent_id = some a.hierarchical_id) (get_path_to_root t k) ∧
    (∀ x ∈ get_path_to_root t k, getVal? t.states x.hierarchical_id = some x) := by
  have hfuel : (t.states.filter fun p => decide (p.2.sequence_id ≤ s.sequence_id)).length
      ≤ t.states.length := List.length_filter_le _ _
  obtain ⟨chain, heq, hne, hlast, hhead, hchain, hmem⟩ :=
    pathGo_spec h t.states.length k s [] hk hfuel
  unfold get_path_to_root
  rw [heq, List.append_nil]
  exact ⟨hne, hlast, hhead, hchain, hmem⟩

/-! ### Navigator characterisations -/

theorem current_state_prop_some {t : ConversationTree} {cur : ConversationState}
    (hc : current_state_prop t = some cur) :
    ∃ k, t.current_state = some k ∧ k ≠ "" ∧ getVal? t.states k = some cur := by
  unfold current_state_prop at hc
  cases hcs : t.current_state with
  | none => rw [hcs] at hc; exact Option.noConfusion hc
  | some c =>
    rw [hcs] at hc
    have hc' : (if c = "" then none else getVal? t.states c) = some cur := hc
    by_cases hce : c = ""
    · rw [if_pos hce] at hc'
      exact Option.noConfusion hc'
    · rw [if_neg hce] at hc'
      exact ⟨c, rfl, hce, hc'⟩

theorem go_up_nocur {t : ConversationTree} (hc : current_state_prop t = none) :
    go_up t = (.error .noCurrentState, t) := by
  unfold go_up
  rw [hc]

theorem go_up_root {t : ConversationTree} {cur : ConversationState}
    (hc : current_state_prop t = some cur) (hr : cur.parent_id = none) :
    go_up t = (.error .alreadyAtRoot, t) := by
  unfold go_up
  rw [hc]
  show (match cur.parent_id with
    | none => ((Except.error NavErr.alreadyAtRoot : Except NavErr ConversationState), t)
    | some _ =>
      match get_parent t cur.hierarchical_id with
      | none => (Except.error NavErr.parentNotFound, t)
      | some parent =>
        (Except.ok parent, (navigate_to t (.hier parent.hierarchical_id)).2)) = _
  rw [hr]

theorem go_up_parent {t : ConversationTree} {cur parent : ConversationState} {q : String}
    (hc : current_state_prop t = some cur) (hq : cur.parent_id = some q)
    (hp : get_parent t cur.hierarchical_id = some parent) :
    go_up t = (.ok parent, (navigate_to t (.hier parent.hierarchical_id)).2) := by
  unfold go_up
  rw [hc]
  show (match cur.parent_id with
    | none => ((Except.error NavErr.alreadyAtRoot : Except NavErr ConversationState), t)
    | some _ =>
      match get_parent t cur.hierarchical_id with
      | none => (Except.error NavErr.parentNotFound, t)
      | some parent =>
        (Except.ok parent, (navigate_to t (.hier parent.hierarchical_id)).2)) = _
  rw [hq]
  show (match get_parent t cur.hierarchical_id with
    | none => ((Except.error NavErr.parentNotFound : Except NavErr ConversationState), t)
    | some parent =>
      (Except.ok parent, (navigate_to t (.hier parent.hierarchical_id)).2)) = _
  rw [hp]

theorem get_parent_eq {t : ConversationTree} {k q : String} {cur s' : ConversationState}
    (hk : getVal? t.states k = some cur) (hq : cur.parent_id = some q) (hqe : q ≠ "")
    (hs' : getVal? t.states q = some s') : get_parent t k = some s' := by
  unfold get_parent
  rw [hk]
  show (match cur.parent_id with
    | none => none
    | some p => if p = "" then none else getVal? t.states p) = _
  rw [hq]
  show (if q = "" then none else getVal? t.states q) = _
  rw [if_neg hqe, hs']

theorem go_down_nocur {t : ConversationTree} (hc : current_state_prop t = none)
    (bi : Int) : go_down t bi = (.error .noCurrentState, t) := by
  unfold go_down
  rw [hc]

theorem go_down_nochildren {t : ConversationTree} {cur : ConversationState}
    (hc : current_state_prop t = some cur)
    (hch : get_children t cur.hierarchical_id = []) (bi : Int) :
    go_down t bi = (.error .noChildren, t) := by
  unfold go_down
  rw [hc]
  show (if (get_children t cur.hierarchical_id).isEmpty then
      ((.error .noChildren : Except NavErr ConversationState), t)
    else if h : 1 ≤ bi ∧ bi ≤ ((get_children t cur.hierarchical_id).length : Int) then
      _
    else ((.error (.invalidBranchIndex bi (get_children t cur.hierarchical_id).length)), t)) = _
  rw [if_pos (by simp [hch])]

theorem go_down_outrange {t : ConversationTree} {cur : ConversationState}
    (hc : current_state_prop t = some cur)
    (hne : get_children t cur.hierarchical_id ≠ []) {bi : Int}
    (hout : ¬(1 ≤ bi ∧ bi ≤ ((get_children t cur.hierarchical_id).length : Int))) :
    go_down t bi =
      (.error (.invalidBranchIndex bi (get_children t cur.hierarchical_id).length), t) := by
  unfold go_down
  rw [hc]
  show (if (get_children t cur.hierarchical_id).isEmpty then
      ((.error .noChildren : Except NavErr ConversationState), t)
    else if h : 1 ≤ bi ∧ bi ≤ ((get_children t cur.hierarchical_id).length : Int) then
      _
    else ((.error (.invalidBranchIndex bi (get_children t cur.hierarchical_id).length)), t)) = _
  rw [if_neg (by simpa [List.isEmpty_iff] using hne), dif_neg hout]

theorem go_down_inrange {t : ConversationTree} {cur : ConversationState}
    (hc : current_state_prop t = some cur) {bi : Int}
    (hin : 1 ≤ bi ∧ bi ≤ ((get_children t cur.hierarchical_id).length : Int)) :
    ∃ child, (get_children t cur.hierarchical_id)[(bi - 1).toNat]? = some child ∧
      go_down t bi = (.ok child, (navigate_to t (.hier child.hierarchical_id)).2) := by
  have hne : ¬(get_children t cur.hierarchical_id).isEmpty := by
    rw [List.isEmpty_iff]
    intro hnil
    rw [hnil] at hin
    simp at hin
    omega
  have hidx : (bi - 1).toNat < (get_children t cur.hierarchical_id).length := by omega
  refine ⟨(get_children t cur.hierarchical_id).get ⟨(bi - 1).toNat, hidx⟩,
    by rw [List.getElem?_eq_getElem hidx]; rfl, ?_⟩
  unfold go_down
  rw [hc]
  show (if (get_children t cur.hierarchical_id).isEmpty then
      ((.error .noChildren : Except NavErr ConversationState), t)
    else if h : 1 ≤ bi ∧ bi ≤ ((get_children t cur.hierarchical_id).length : Int) then
      ((.ok ((get_children t cur.hierarchical_id).get ⟨(bi - 1).toNat, by omega⟩)),
       (navigate_to t (.hier ((get_children t cur.hierarchical_id).get
         ⟨(bi - 1).toNat, by omega⟩).hierarchical_id)).2)
    else ((.error (.invalidBranchIndex bi (get_children t cur.hierarchical_id).length)), t)) = _
  rw [if_neg hne, dif_pos hin]

/-! ### Sequence-id accounting over `add_state` runs -/

theorem trueIndicesFrom_all_true :
    ∀ (l : List Bool) (k : Nat), (∀ b ∈ l, b = true) →
      trueIndicesFrom k l = List.range' k l.length := by
  intro l
  induction l with
  | nil => intro k _; rfl
  | cons b r ih =>
    intro k hall
    have hb : b = true := hall b (List.mem_cons_self b r)
    subst hb
    show (if true then k :: trueIndicesFrom (k + 1) r else trueIndicesFrom (k + 1) r) = _
    rw [if_pos rfl, ih (k + 1) fun b hb => hall b (List.mem_cons_of_mem _ hb)]
    rfl

theorem runAddsTrace_length :
    ∀ (calls : List AddCall) (t : ConversationTree),
      (runAddsTrace t calls).length = calls.length := by
  intro calls
  induction calls with
  | nil => intro t; rfl
  | cons c rest ih =>
    intro t
    show (_ :: runAddsTrace (add_state t c.parent c.message c.response c.model c.ts).2
      rest).length = _
    rw [List.length_cons, ih, List.length_cons]

/-- Outcome of one `add_state` call on an invariant-satisfying tree:
success appends one state carrying the next sequence number, failure
changes nothing but the counter; both consume the number. -/
theorem add_state_cases (t : ConversationTree) (h : WF t) (pid : Option String)
    (m r mo : String) (ts : Nat) :
    (∃ st, (add_state t pid m r mo ts).1 = .ok st ∧
      st.sequence_id = t.sequence_counter + 1 ∧
      (add_state t pid m r mo ts).2.states = t.states ++ [(st.hierarchical_id, st)] ∧
      (add_state t pid m r mo ts).2.sequence_counter = t.sequence_counter + 1) ∨
    ((∃ e, (add_state t pid m r mo ts).1 = .error e) ∧
      (add_state t pid m r mo ts).2.states = t.states ∧
      (add_state t pid m r mo ts).2.sequence_counter = t.sequence_counter + 1) := by
  cases pid with
  | none =>
    rw [add_state_none_eq]
    left
    exact ⟨_, rfl, rfl, dictInsert_fresh _ h.fresh_root, rfl⟩
  | some p =>
    cases hp : getVal? t.states p with
    | none =>
      rw [add_state_missing_eq t p m r mo ts hp]
      exact Or.inr ⟨⟨_, rfl⟩, rfl, rfl⟩
    | some sp =>
      rw [add_state_child_eq t p m r mo ts hp]
      left
      exact ⟨_, rfl, rfl, dictInsert_fresh _ (h.fresh_child p), rfl⟩

theorem runAdds_general (calls : List AddCall) :
    ∀ t : ConversationTree, WF t →
      (runAdds t calls).states.map (fun p => p.2.sequence_id)
          = t.states.map (fun p => p.2.sequence_id)
            ++ trueIndicesFrom (t.sequence_counter + 1) (runAddsTrace t calls) ∧
      (runAdds t calls).sequence_counter = t.sequence_counter + calls.length := by
  induction calls with
  | nil =>
    intro t ht
    show (t.states.map _ = t.states.map _ ++ trueIndicesFrom _ []) ∧
      t.sequence_counter = t.sequence_counter + 0
    simp [trueIndicesFrom]
  | cons c rest ih =>
    intro t ht
    have hwf' : WF (add_state t c.parent c.message c.response c.model c.ts).2 :=
      WF_add t ht c.parent c.message c.response c.model c.ts
    obtain ⟨hmap, hcnt⟩ := ih (add_state t c.parent c.message c.response c.model c.ts).2 hwf'
    have hshow : runAdds t (c :: rest)
        = runAdds (add_state t c.parent c.message c.response c.model c.ts).2 rest := rfl
    rcases add_state_cases t ht c.parent c.message c.response c.model c.ts with
      ⟨st, hok, hseq, hst, hc⟩ | ⟨⟨e, herr⟩, hst, hc⟩
    · have htr : runAddsTrace t (c :: rest)
          = true :: runAddsTrace (add_state t c.parent c.message c.response c.model c.ts).2
              rest := by
        simp only [runAddsTrace]
        rw [hok]
      constructor
      · rw [hshow, hmap, hst, List.map_append, htr, hc]
        show _ ++ [st.sequence_id] ++ _
          = _ ++ trueIndicesFrom (t.sequence_counter + 1) (true :: _)
        have hti : trueIndicesFrom (t.sequence_counter + 1)
            (true :: runAddsTrace (add_state t c.parent c.message c.response c.model c.ts).2
              rest)
            = (t.sequence_counter + 1)
              :: trueIndicesFrom (t.sequence_counter + 2)
                  (runAddsTrace (add_state t c.parent c.message c.response c.model c.ts).2
                    rest) := by
          show (if true then _ :: trueIndicesFrom _ _ else trueIndicesFrom _ _) = _
          rw [if_pos rfl]
        rw [hti, hseq, List.append_assoc]
        rfl
      · rw [hshow, hcnt, hc, List.length_cons]
        omega
    · have htr : runAddsTrace t (c :: rest)
          = false :: runAddsTrace (add_state t c.parent c.message c.response c.model c.ts).2
              rest := by
        simp only [runAddsTrace]
        rw [herr]
      constructor
      · rw [hshow, hmap, hst, htr, hc]
        show _ ++ _ = _ ++ trueIndicesFrom (t.sequence_counter + 1) (false :: _)
        have hti : trueIndicesFrom (t.sequence_counter + 1)
            (false :: runAddsTrace (add_state t c.parent c.message c.response c.model c.ts).2
              rest)
            = trueIndicesFrom (t.sequence_counter + 2)
                (runAddsTrace (add_state t c.parent c.message c.response c.model c.ts).2
                  rest) := by
          show (if false then _ :: trueIndicesFrom _ _ else trueIndicesFrom _ _) = _
          rw [if_neg (by simp)]
        rw [hti]
      · rw [hshow, hcnt, hc, List.length_cons]
        omega

/-! ### Claim C3 -/

/-- The C3 counterexample calls: the first call names a parent that does
not exist yet, the second adds a root. -/
def c3FailCalls : List AddCall :=
  [⟨some "1", "m", "r", "mo", 0⟩, ⟨none, "m", "r", "mo", 0⟩]

/-- C3 counterexample: after a failed `add_state` (missing parent)
followed by one successful root `add_state`, one state is stored and its
sequence id is 2, not the claimed `1..N = [1]` — the failed call consumed
sequence number 1 because the counter is incremented before the parent
check. -/
theorem C3_counterexample :
    state_count (runAdds emptyTree c3FailCalls) = 1 ∧
    (runAdds emptyTree c3FailCalls).states.map (fun p => p.2.sequence_id) = [2] ∧
    (runAdds emptyTree c3FailCalls).states.map (fun p => p.2.sequence_id)
      ≠ List.range' 1 1 :=
  ⟨rfl, rfl, by decide⟩

/-- C3 (amended): every `add_state` call, successful or failed, consumes
one sequence number; the sequence ids of the inserted states, in
insertion order, are exactly the 1-based positions of the successful
calls within the whole call sequence — in particular exactly `1..N` when
no call fails. -/
theorem C3_sequence_ids (calls : List AddCall) :
    (runAdds emptyTree calls).states.map (fun p => p.2.sequence_id)
        = trueIndicesFrom 1 (runAddsTrace emptyTree calls) ∧
    (runAdds emptyTree calls).sequence_counter = calls.length ∧
    ((∀ b ∈ runAddsTrace emptyTree calls, b = true) →
      (runAdds emptyTree calls).states.map (fun p => p.2.sequence_id)
          = List.range' 1 calls.length) := by
  obtain ⟨h1, h2⟩ := runAdds_general calls emptyTree WF_empty
  have h1' : (runAdds emptyTree calls).states.map (fun p => p.2.sequence_id)
      = trueIndicesFrom 1 (runAddsTrace emptyTree calls) := by
    simpa [emptyTree] using h1
  have h2' : (runAdds emptyTree calls).sequence_counter = calls.length := by
    simpa [emptyTree] using h2
  refine ⟨h1', h2', ?_⟩
  intro hall
  rw [h1', trueIndicesFrom_all_true _ _ hall, runAddsTrace_length]

/-- The C3 witness calls: two successful calls, a root and its child. -/
def c3WitnessCalls : List AddCall :=
  [⟨none, "m1", "r1", "mo", 0⟩, ⟨some "1", "m2", "r2", "mo", 1⟩]

theorem C3_sequence_ids_witness :
    (runAdds emptyTree c3WitnessCalls).states.map (fun p => p.2.sequence_id)
      = List.range' 1 2 :=
  (C3_sequence_ids c3WitnessCalls).2.2 (by decide)

/-! ### Claim C4 -/

/-- The C4 failing input: a root and two children of it. -/
def c4Calls : List AddCall :=
  [⟨none, "What is AI?", "resp1", "m", 0⟩, ⟨some "1", "How?", "resp2", "m", 1⟩,
   ⟨some "1", "How? variant", "resp3", "m", 2⟩]

/-- C4 evaluation at the failing input: when state `"1.2"` is inserted
its parent `"1"` already has one child, so the claim (and the spec)
require `is_branch = true`; but `add_state` never writes the
`"is_branch"` metadata key, so the stored record's `is_branch` is
`false`. -/
theorem C4_is_branch_evaluation :
    ((runAdds emptyTree (c4Calls.take 2)).parent_children "1").length = 1 ∧
    (getVal? (runAdds emptyTree c4Calls).states "1.2").map ConversationState.is_branch
      = some false :=
  ⟨rfl, rfl⟩

/-! ### Claim C5 -/

/-- C5: `navigate_to` never touches the store, the derived indices or
the counter; a hit moves only the current pointer to the resolved
state's hierarchical id and returns true, a miss returns false and
leaves the tree — including the current pointer — unchanged. -/
theorem C5_navigate_frame (t : ConversationTree) (ident : Ident) :
    (navigate_to t ident).2.states = t.states ∧
    (navigate_to t ident).2.sequence_index = t.sequence_index ∧
    (navigate_to t ident).2.hierarchy_index = t.hierarchy_index ∧
    (navigate_to t ident).2.parent_children = t.parent_children ∧
    (navigate_to t ident).2.sequence_counter = t.sequence_counter ∧
    ((navigate_to t ident).1 = true → ∃ pid st, navParse ident = some pid ∧
      find_state t pid = some st ∧
      (navigate_to t ident).2.current_state = some st.hierarchical_id) ∧
    ((navigate_to t ident).1 = false → (navigate_to t ident).2 = t) := by
  cases hparse : navParse ident with
  | none =>
    rw [navigate_to_eq_noparse hparse]
    exact ⟨rfl, rfl, rfl, rfl, rfl, fun hb => Bool.noConfusion hb, fun _ => rfl⟩
  | some pid =>
    cases hf : find_state t pid with
    | none =>
      rw [navigate_to_eq_miss hparse hf]
      exact ⟨rfl, rfl, rfl, rfl, rfl, fun hb => Bool.noConfusion hb, fun _ => rfl⟩
    | some st =>
      rw [navigate_to_eq_hit hparse hf]
      exact ⟨rfl, rfl, rfl, rfl, rfl, fun _ => ⟨pid, st, rfl, hf, rfl⟩,
        fun hb => Bool.noConfusion hb⟩

/-- The C5 witness tree: one root state `"1"`. -/
def c5Tree : ConversationTree := runOps [.add none "hello" "world" "m" 0]

theorem C5_navigate_frame_witness :
    (navigate_to c5Tree (.hier "1")).2.states = c5Tree.states ∧
    (navigate_to c5Tree (.hier "1")).2.sequence_counter = c5Tree.sequence_counter ∧
    (navigate_to c5Tree (.hier "99")).2 = c5Tree := by
  obtain ⟨h1, _, _, _, h5, _, _⟩ := C5_navigate_frame c5Tree (.hier "1")
  obtain ⟨_, _, _, _, _, _, h7⟩ := C5_navigate_frame c5Tree (.hier "99")
  exact ⟨h1, h5, h7 rfl⟩

/-! ### Claim C7 -/

/-- C7: `update_state` rejects — returning the false/failure outcome and
leaving the whole tree, in particular the stored record, unchanged —
whenever the replacement's `hierarchical_id` differs from the target id;
when they agree and the id is stored, the record is replaced.  A missing
id is also rejected unchanged. -/
theorem C7_update_state (t : ConversationTree) (id : String) (rec : ConversationState) :
    (rec.hierarchical_id ≠ id → update_state t id rec = (false, t)) ∧
    (∀ s, getVal? t.states id = some s → rec.hierarchical_id = id →
      update_state t id rec = (true, { t with states := dictInsert t.states id rec }) ∧
      getVal? (update_state t id rec).2.states id = some rec) ∧
    (getVal? t.states id = none → update_state t id rec = (false, t)) := by
  refine ⟨?_, ?_, ?_⟩
  · intro hne
    unfold update_state
    cases hid : getVal? t.states id with
    | none => rfl
    | some s =>
      show (if rec.hierarchical_id ≠ id then (false, t)
        else (true, { t with states := dictInsert t.states id rec })) = _
      rw [if_pos hne]
  · intro s hid hh
    have heq := update_state_hit_eq hid hh
    refine ⟨heq, ?_⟩
    rw [heq]
    exact getVal?_dictInsert_self hid rec
  · intro hid
    unfold update_state
    rw [hid]

/-- The C7 witness tree: one root state `"1"`. -/
def c7Tree : ConversationTree := runOps [.add none "x" "y" "m" 0]

/-- A replacement record whose hierarchical id does not match `"1"`. -/
def c7Bad : ConversationState := mkAddedState "2" 1 none "x" "y" "m" 0

/-- A tags-only replacement for the stored record at `"1"`. -/
def c7Good : ConversationState := mkAddedState "1" 1 none "x" "y" "m" 0

theorem C7_update_state_witness :
    update_state c7Tree "1" c7Bad = (false, c7Tree) ∧
    update_state c7Tree "1" c7Good
      = (true, { c7Tree with states := dictInsert c7Tree.states "1" c7Good }) := by
  refine ⟨(C7_update_state c7Tree "1" c7Bad).1 (by decide), ?_⟩
  exact ((C7_update_state c7Tree "1" c7Good).2.1 c7Good rfl rfl).1

/-! ### Claim C10 -/

/-- C10: `with_tags`, `add_tag` and `remove_tag` produce records whose
hierarchical id, sequence id, parent, message, response, model,
timestamp and metadata all equal the original's — only `tags` may
change. -/
theorem C10_tag_ops_frame (s : ConversationState) (tags : Finset String) (tag : String) :
    ((s.with_tags tags).hierarchical_id = s.hierarchical_id ∧
      (s.with_tags tags).sequence_id = s.sequence_id ∧
      (s.with_tags tags).parent_id = s.parent_id ∧
      (s.with_tags tags).message = s.message ∧
      (s.with_tags tags).response = s.response ∧
      (s.with_tags tags).model = s.model ∧
      (s.with_tags tags).timestamp = s.timestamp ∧
      (s.with_tags tags).metadata = s.metadata) ∧
    ((s.add_tag tag).hierarchical_id = s.hierarchical_id ∧
      (s.add_tag tag).sequence_id = s.sequence_id ∧
      (s.add_tag tag).parent_id = s.parent_id ∧
      (s.add_tag tag).message = s.message ∧
      (s.add_tag tag).response = s.response ∧
      (s.add_tag tag).model = s.model ∧
      (s.add_tag tag).timestamp = s.timestamp ∧
      (s.add_tag tag).metadata = s.metadata) ∧
    ((s.remove_tag tag).hierarchical_id = s.hierarchical_id ∧
      (s.remove_tag tag).sequence_id = s.sequence_id ∧
      (s.remove_tag tag).parent_id = s.parent_id ∧
      (s.remove_tag tag).message = s.message ∧
      (s.remove_tag tag).response = s.response ∧
      (s.remove_tag tag).model = s.model ∧
      (s.remove_tag tag).timestamp = s.timestamp ∧
      (s.remove_tag tag).metadata = s.metadata) :=
  ⟨⟨rfl, rfl, rfl, rfl, rfl, rfl, rfl, rfl⟩,
   ⟨rfl, rfl, rfl, rfl, rfl, rfl, rfl, rfl⟩,
   ⟨rfl, rfl, rfl, rfl, rfl, rfl, rfl, rfl⟩⟩

/-! ### Claim C2 -/

/-- C2: a successful root `add_state` gives the new state the id
`str(its sequence_id)`; a successful child `add_state` gives it
`parent_id ++ "." ++ str(1 + children-before)` and appends it to the
parent's child list; in every reachable tree the `j`-th child slot of
any parent is literally `parent.(j+1)` — slots are positional, assigned
in creation order, and `add_state` only ever appends to child lists, so
slots are never renumbered. -/
theorem C2_hierarchical_id_assignment (t : ConversationTree) (h : Reach t)
    (m r mo : String) (ts : Nat) :
    (∀ st tr, add_state t none m r mo ts = (.ok st, tr) →
      st.hierarchical_id = natToStr st.sequence_id) ∧
    (∀ p st tr, add_state t (some p) m r mo ts = (.ok st, tr) →
      st.hierarchical_id = p ++ "." ++ natToStr ((t.parent_children p).length + 1) ∧
      tr.parent_children p = t.parent_children p ++ [st.hierarchical_id]) ∧
    (∀ q j c, (t.parent_children q)[j]? = some c → c = q ++ "." ++ natToStr (j + 1)) ∧
    (∀ pid q, ∃ suffix, ((add_state t pid m r mo ts).2).parent_children q
        = t.parent_children q ++ suffix) := by
  have hwf := WF_reach h
  refine ⟨?_, ?_, hwf.children_ids, ?_⟩
  · intro st tr heq
    rw [add_state_none_eq] at heq
    have h1 : Except.ok (mkAddedState (natToStr (t.sequence_counter + 1))
        (t.sequence_counter + 1) none m r mo ts) = Except.ok st := congrArg Prod.fst heq
    obtain rfl := (Except.ok.inj h1).symm
    rfl
  · intro p st tr heq
    cases hp : getVal? t.states p with
    | none =>
      rw [add_state_missing_eq t p m r mo ts hp] at heq
      exact absurd (congrArg Prod.fst heq) (by simp)
    | some sp =>
      rw [add_state_child_eq t p m r mo ts hp] at heq
      have h1 := congrArg Prod.fst heq
      have h2 := congrArg Prod.snd heq
      simp only at h1 h2
      obtain rfl := (Except.ok.inj h1).symm
      refine ⟨rfl, ?_⟩
      rw [← h2]
      have hpne : p ≠ "" := hwf.key_ne_empty hp
      show (pcInsert t.parent_children
        (p ++ "." ++ natToStr ((t.parent_children p).length + 1))
        (mkAddedState (p ++ "." ++ natToStr ((t.parent_children p).length + 1))
          (t.sequence_counter + 1) (some p) m r mo ts)) p = _
      rw [pcInsert_some rfl hpne]
      simp [mkAddedState]
  · intro pid q
    cases pid with
    | none =>
      rw [add_state_none_eq]
      refine ⟨[], ?_⟩
      show (pcInsert t.parent_children (natToStr (t.sequence_counter + 1))
        (mkAddedState (natToStr (t.sequence_counter + 1)) (t.sequence_counter + 1)
          none m r mo ts)) q = t.parent_children q ++ []
      rw [pcInsert_none rfl]
      simp
    | some p =>
      cases hp : getVal? t.states p with
      | none =>
        rw [add_state_missing_eq t p m r mo ts hp]
        exact ⟨[], by simp⟩
      | some sp =>
        rw [add_state_child_eq t p m r mo ts hp]
        have hpne : p ≠ "" := hwf.key_ne_empty hp
        by_cases hqp : q = p
        · subst hqp
          refine ⟨[q ++ "." ++ natToStr ((t.parent_children q).length + 1)], ?_⟩
          show (pcInsert t.parent_children
            (q ++ "." ++ natToStr ((t.parent_children q).length + 1))
            (mkAddedState (q ++ "." ++ natToStr ((t.parent_children q).length + 1))
              (t.sequence_counter + 1) (some q) m r mo ts)) q
            = t.parent_children q ++ [q ++ "." ++ natToStr ((t.parent_children q).length + 1)]
          rw [pcInsert_some rfl hpne]
          simp [mkAddedState]
        · refine ⟨[], ?_⟩
          show (pcInsert t.parent_children
            (p ++ "." ++ natToStr ((t.parent_children p).length + 1))
            (mkAddedState (p ++ "." ++ natToStr ((t.parent_children p).length + 1))
              (t.sequence_counter + 1) (some p) m r mo ts)) q
            = t.parent_children q ++ []
          rw [pcInsert_some rfl hpne]
          simp [hqp]

/-- The C2 witness tree: one root `"1"` with one child `"1.1"`. -/
def c2Ops : List Op := [.add none "a" "r" "m" 0, .add (some "1") "b" "r" "m" 1]

/-- The C2 witness tree value. -/
def c2Tree : ConversationTree := runOps c2Ops

theorem C2_hierarchical_id_assignment_witness :
    (mkAddedState "1.2" 3 (some "1") "c" "r" "m" 2).hierarchical_id
      = "1" ++ "." ++ natToStr ((c2Tree.parent_children "1").length + 1) ∧
    (add_state c2Tree (some "1") "c" "r" "m" 2).2.parent_children "1"
      = c2Tree.parent_children "1"
        ++ [(mkAddedState "1.2" 3 (some "1") "c" "r" "m" 2).hierarchical_id] :=
  (C2_hierarchical_id_assignment c2Tree ⟨c2Ops, rfl⟩ "c" "r" "m" 2).2.1 "1"
    (mkAddedState "1.2" 3 (some "1") "c" "r" "m" 2)
    (add_state c2Tree (some "1") "c" "r" "m" 2).2 rfl

/-! ### Claim C8 -/

theorem stripLastSegment_childId (q : String) (k : Nat) :
    stripLastSegment (q ++ "." ++ natToStr k) = some q := by
  have hmk : (q ++ "." ++ natToStr k) = String.mk (q.data ++ '.' :: (natToStr k).data) := by
    rw [← childId_data]
  rw [hmk]
  exact stripLastSegment_append (dot_not_mem_natToStr k)

/-- C8: in every reachable tree the stored records' hierarchical ids are
pairwise distinct, a root record's id has no dot (so stripping yields
nothing) exactly as its parent is absent, and stripping the final
dot-segment of a non-root record's id yields exactly its `parent_id`. -/
theorem C8_unique_ids_and_parent_chain (t : ConversationTree) (h : Reach t) :
    (t.states.map fun p => p.2.hierarchical_id).Nodup ∧
    ∀ p ∈ t.states,
      (p.2.parent_id = none → '.' ∉ p.2.hierarchical_id.data ∧
        stripLastSegment p.2.hierarchical_id = none) ∧
      (∀ q, p.2.parent_id = some q → stripLastSegment p.2.hierarchical_id = some q) := by
  have hwf := WF_reach h
  constructor
  · have hmapeq : ∀ l : List (String × ConversationState),
        (∀ p ∈ l, p.2.hierarchical_id = p.1) →
        (l.map fun p => p.2.hierarchical_id) = keys l := by
      intro l
      induction l with
      | nil => intro _; rfl
      | cons a r ih =>
        intro hkey
        simp only [List.map_cons, keys]
        rw [hkey a (List.mem_cons_self a r),
          ih fun p hp => hkey p (List.mem_cons_of_mem _ hp)]
        rfl
    rw [hmapeq t.states hwf.key_eq]
    exact hwf.keys_nodup
  · intro p hp
    rw [hwf.key_eq p hp]
    constructor
    · intro hroot
      rw [hwf.root_form p hp hroot]
      exact ⟨dot_not_mem_natToStr _, stripLastSegment_no_dot (dot_not_mem_natToStr _)⟩
    · intro q hq
      have hcm := hwf.child_mem p hp q hq
      obtain ⟨j, hjlt, hget⟩ := List.mem_iff_getElem.mp hcm
      rw [hwf.children_ids q j p.1 (by rw [List.getElem?_eq_getElem hjlt, hget])]
      exact stripLastSegment_childId q (j + 1)

/-- The C8 witness tree operations. -/
def c8Ops : List Op := [.add none "a" "r" "m" 0, .add (some "1") "b" "r" "m" 1]

/-- The C8 witness tree value. -/
def c8Tree : ConversationTree := runOps c8Ops

theorem C8_unique_ids_and_parent_chain_witness :
    (c8Tree.states.map fun p => p.2.hierarchical_id).Nodup ∧
    stripLastSegment "1.1" = some "1" := by
  obtain ⟨h1, h2⟩ := C8_unique_ids_and_parent_chain c8Tree ⟨c8Ops, rfl⟩
  refine ⟨h1, ?_⟩
  exact (h2 ("1.1", mkAddedState "1.1" 2 (some "1") "b" "r" "m" 1) (by decide)).2 "1" rfl

/-! ### Claim C6 -/

/-- The C6 counterexample tree: one root state `"1"`. -/
def c6Ops : List Op := [.add none "m" "r" "mo" 0]

/-- The C6 counterexample tree value. -/
def c6Tree : ConversationTree := runOps c6Ops

/-- C6 counterexample: for the absent identifier `"2"` the source's
`get_path_to_root` silently returns the empty list — its `while` loop
just never runs, there is no `NotFound` failure channel at all. -/
theorem C6_counterexample :
    getVal? c6Tree.states "2" = none ∧ get_path_to_root c6Tree "2" = [] := ⟨rfl, rfl⟩

/-- C6 (amended): for an identifier absent from the store,
`get_path_to_root` returns the empty sequence (no error is raised); for
a present identifier it returns the ordered sequence of states from the
root ancestor down to and including the identifier, following
`parent_id` links: the result is nonempty, ends at the queried state,
starts at a root, consecutive entries are parent-linked, and every entry
is stored. -/
theorem C6_path_to_root (t : ConversationTree) (h : Reach t) (id : String) :
    (getVal? t.states id = none → get_path_to_root t id = []) ∧
    (∀ s, getVal? t.states id = some s →
      get_path_to_root t id ≠ [] ∧
      (get_path_to_root t id).getLast? = some s ∧
      (∀ hd ∈ (get_path_to_root t id).head?, hd.parent_id = none) ∧
      List.Chain' (fun a b => b.parent_id = some a.hierarchical_id) (get_path_to_root t id) ∧
      (∀ x ∈ get_path_to_root t id, getVal? t.states x.hierarchical_id = some x)) :=
  ⟨fun hk => get_path_to_root_absent hk,
   fun _ hs => get_path_to_root_present (WF_reach h) hs⟩

theorem C6_path_to_root_witness :
    get_path_to_root c6Tree "1" ≠ [] ∧
    (get_path_to_root c6Tree "1").getLast? = some (mkAddedState "1" 1 none "m" "r" "mo" 0) := by
  obtain ⟨hne, hlast, _, _, _⟩ := (C6_path_to_root c6Tree ⟨c6Ops, rfl⟩ "1").2
    (mkAddedState "1" 1 none "m" "r" "mo" 0) rfl
  exact ⟨hne, hlast⟩

/-! ### Claim C9 -/

/-- The C9 counterexample tree: one root state `"1"`, which is current
and has no children. -/
def c9Ops : List Op := [.add none "m" "r" "mo" 0]

/-- The C9 counterexample tree value. -/
def c9Tree : ConversationTree := runOps c9Ops

/-- C9 counterexample: with a current state that has zero children,
`go_down 2` is out of the claimed range `1..0`, yet the navigator fails
with the no-children error, not with `InvalidBranchIndex` reporting the
range. -/
theorem C9_counterexample :
    current_state_prop c9Tree ≠ none ∧
    get_children c9Tree "1" = [] ∧
    (go_down c9Tree 2).1 = .error .noChildren ∧
    NavErr.noChildren ≠ NavErr.invalidBranchIndex 2 0 :=
  ⟨by decide, rfl, rfl, by decide⟩

/-- C9 (amended): `go_up` fails without a current state, fails with the
already-at-root error when the current state is a root, and otherwise
navigates to the current state's parent; `go_down branch_index` fails
without a current state, fails with the no-children error when the
current state has no children (for every index), fails with
`InvalidBranchIndex` reporting the valid range when children exist but
the 1-based index is outside `1..n`, and otherwise navigates to the
`branch_index`-th child in insertion order. -/
theorem C9_navigator (t : ConversationTree) (h : Reach t) (branch_index : Int) :
    (current_state_prop t = none → go_up t = (.error .noCurrentState, t) ∧
      go_down t branch_index = (.error .noCurrentState, t)) ∧
    (∀ cur, current_state_prop t = some cur → cur.parent_id = none →
      go_up t = (.error .alreadyAtRoot, t)) ∧
    (∀ cur q, current_state_prop t = some cur → cur.parent_id = some q →
      ∃ parent, getVal? t.states q = some parent ∧
        go_up t = (.ok parent, { t with current_state := some q })) ∧
    (∀ cur, current_state_prop t = some cur → get_children t cur.hierarchical_id = [] →
      go_down t branch_index = (.error .noChildren, t)) ∧
    (∀ cur, current_state_prop t = some cur → get_children t cur.hierarchical_id ≠ [] →
      ¬(1 ≤ branch_index ∧
          branch_index ≤ ((get_children t cur.hierarchical_id).length : Int)) →
      go_down t branch_index = (.error (.invalidBranchIndex branch_index
        (get_children t cur.hierarchical_id).length), t)) ∧
    (∀ cur, current_state_prop t = some cur →
      (1 ≤ branch_index ∧
        branch_index ≤ ((get_children t cur.hierarchical_id).length : Int)) →
      ∃ child, (get_children t cur.hierarchical_id)[(branch_index - 1).toNat]? = some child ∧
        go_down t branch_index
          = (.ok child, { t with current_state := some child.hierarchical_id })) := by
  have hwf := WF_reach h
  refine ⟨?_, ?_, ?_, ?_, ?_, ?_⟩
  · intro hc
    exact ⟨go_up_nocur hc, go_down_nocur hc branch_index⟩
  · intro cur hc hr
    exact go_up_root hc hr
  · intro cur q hc hq
    obtain ⟨k, hcs, hke, hk⟩ := current_state_prop_some hc
    have hkey : cur.hierarchical_id = k := hwf.getVal_key hk
    obtain ⟨s', hs', hlt⟩ := hwf.parent_stored (k, cur) (getVal?_mem hk) q hq
    have hqne : q ≠ "" := hwf.key_ne_empty hs'
    have hgp : get_parent t cur.hierarchical_id = some s' := by
      rw [hkey]
      exact get_parent_eq hk hq hqne hs'
    refine ⟨s', hs', ?_⟩
    rw [go_up_parent hc hq hgp]
    have hqkey : s'.hierarchical_id = q := hwf.getVal_key hs'
    rw [hqkey, navigate_to_stored hwf hs']
  · intro cur hc hch
    exact go_down_nochildren hc hch branch_index
  · intro cur hc hne hout
    exact go_down_outrange hc hne hout
  · intro cur hc hin
    obtain ⟨child, hchild, heq⟩ := go_down_inrange hc hin
    refine ⟨child, hchild, ?_⟩
    rw [heq]
    have hj := hchild
    rw [get_children_getElem? hwf cur.hierarchical_id] at hj
    cases hpcj : (t.parent_children cur.hierarchical_id)[(branch_index - 1).toNat]? with
    | none =>
      rw [hpcj] at hj
      simp at hj
    | some c =>
      rw [hpcj] at hj
      have hj' : getVal? t.states c = some child := hj
      have hckey : child.hierarchical_id = c := hwf.getVal_key hj'
      rw [hckey, navigate_to_stored hwf hj']

/-- The C9 witness tree: root `"1"` with one child `"1.1"`, current
moved back to the root. -/
def c9wOps : List Op :=
  [.add none "a" "r" "m" 0, .add (some "1") "b" "r" "m" 1, .nav (.seq 1)]

/-- The C9 witness tree value. -/
def c9wTree : ConversationTree := runOps c9wOps

theorem C9_navigator_witness :
    go_up c9wTree = (.error .alreadyAtRoot, c9wTree) ∧
    go_down c9wTree 2 = (.error (.invalidBranchIndex 2 1), c9wTree) := by
  have h := C9_navigator c9wTree ⟨c9wOps, rfl⟩ 2
  refine ⟨h.2.1 (mkAddedState "1" 1 none "a" "r" "m" 0) rfl rfl, ?_⟩
  have hout := h.2.2.2.2.1 (mkAddedState "1" 1 none "a" "r" "m" 0) rfl
    (by decide) (by decide)
  exact hout

/-! ### Claim C1 -/

/-- The C1 counterexample base tree: root `"1"` with child `"1.1"`. -/
def c1BaseOps : List Op := [.add none "a" "ra" "m" 0, .add (some "1") "b" "rb" "m" 1]

/-- The C1 counterexample base tree value. -/
def c1Base : ConversationTree := runOps c1BaseOps

/-- A replacement record for `"1.1"` whose `parent_id` has been
cleared — accepted by `update_state` because the hierarchical id still
matches. -/
def c1BadRecord : ConversationState := mkAddedState "1.1" 2 none "bb" "rr" "m" 1

/-- The C1 counterexample tree after the parent-clearing update. -/
def c1Mutated : ConversationTree := (update_state c1Base "1.1" c1BadRecord).2

/-- C1 counterexample: a successful `update_state` that changes the
stored record's `parent_id` desynchronises the persisted-and-reloaded
adjacency from the in-memory one, because `from_dict` rebuilds
parent-to-children purely from the records' `parent_id` fields while the
in-memory child list was built at insertion time. -/
theorem C1_counterexample :
    (update_state c1Base "1.1" c1BadRecord).1 = true ∧
    get_children c1Mutated "1" ≠ get_children (from_dict (to_dict c1Mutated 0)) "1" :=
  ⟨rfl, by decide⟩

/-- C1 (amended): for every tree built by successful `add_state`,
`navigate_to` and tags-only `update_state` operations (the with-tags
pattern the application uses), decoding the encoded snapshot reproduces
the tree exactly — in particular the same `state_count`, the same
`current_state_id`, the same stored records, the same parent-to-children
adjacency in the same order, and the same `get_conversation_messages`
output for every identifier. -/
theorem C1_roundtrip (t : ConversationTree) (h : Reach t) (now : Nat) :
    from_dict (to_dict t now) = t ∧
    state_count (from_dict (to_dict t now)) = state_count t ∧
    current_state_id (from_dict (to_dict t now)) = current_state_id t ∧
    (from_dict (to_dict t now)).states = t.states ∧
    (∀ id : String, get_children (from_dict (to_dict t now)) id = get_children t id) ∧
    (∀ id : String, get_conversation_messages (from_dict (to_dict t now)) (some id)
        = get_conversation_messages t (some id)) := by
  have heq := from_dict_to_dict (WF_reach h) now
  exact ⟨heq, by rw [heq], by rw [heq], by rw [heq], fun id => by rw [heq],
    fun id => by rw [heq]⟩

/-- The C1 witness operations: two turns, a navigation, and a with-tags
update. -/
def c1WitnessOps : List Op :=
  [.add none "a" "ra" "m" 0, .add (some "1") "b" "rb" "m" 1, .nav (.seq 1),
   .tagUpd "1.1" {"keep"}]

/-- The C1 witness tree value. -/
def c1WitnessTree : ConversationTree := runOps c1WitnessOps

theorem C1_roundtrip_witness :
    from_dict (to_dict c1WitnessTree 9) = c1WitnessTree ∧
    get_children (from_dict (to_dict c1WitnessTree 9)) "1" = get_children c1WitnessTree "1" ∧
    get_conversation_messages (from_dict (to_dict c1WitnessTree 9)) (some "1.1")
      = get_conversation_messages c1WitnessTree (some "1.1") := by
  obtain ⟨h1, _, _, _, h5, h6⟩ := C1_roundtrip c1WitnessTree ⟨c1WitnessOps, rfl⟩ 9
  exact ⟨h1, h5 "1", h6 "1.1"⟩

end ContextTree
